import Mathlib

/-!
Verification of the SimplicialHomology repository against its specification.

The repository computes low-dimensional simplicial homology of a complex built
from an undirected graph.  This file gives a shallow embedding of the Python
sources (`homology.py`, `cycle_detection.py` in two variants, `preprocess.py`,
`simplicial_homology_from_graph.py`) as executable Lean definitions and settles
the frozen claims about them.

Conventions of the embedding:
* Vertex labels are naturals; Python tuples/lists of vertices are `List ℕ`.
* A Python dict is an association list in insertion order (`Dict`); CPython
  dicts preserve insertion order and have unique keys.
* A Python `set` of naturals is embedded canonically as a sorted
  duplicate-free list (`pyset`); CPython set iteration order is unspecified,
  and ascending order is the canonical choice made here.  All claims settled
  below depend on sets only through membership, so the choice is inessential.
* Fallible code (Python `KeyError`) returns `Option`.
-/

/-- A face of a simplicial complex: a tuple of vertex labels. -/
abbrev Face := List ℕ

/-- Python `sorted` on a list of naturals. -/
def pysorted (l : List ℕ) : List ℕ :=
  l.insertionSort (· ≤ ·)

/-- Python `set(l)` for a list of naturals, embedded as a sorted
duplicate-free list (see the file docstring). -/
def pyset (l : List ℕ) : List ℕ :=
  (pysorted l).dedup

/-- Python `sorted` on a list of tuples (lexicographic order). -/
def pysortedT (l : List Face) : List Face :=
  l.insertionSort (· ≤ ·)

/-- `itertools.combinations(l, k)`: the length-`k` subsequences of `l`
(positions increasing).  `List.sublistsLen` enumerates exactly those
subsequences; only membership in the result is used by the sources. -/
def combinations (l : List ℕ) (k : ℕ) : List (List ℕ) :=
  List.sublistsLen k l

/-- A Python dict mapping vertex labels to lists of neighbor labels,
embedded as an association list in insertion order. -/
abbrev Dict := List (ℕ × List ℕ)

/-- The keys of a dict, in insertion order. -/
def Dict.keys (d : Dict) : List ℕ :=
  d.map Prod.fst

/-- `d[v]`: the value bound to key `v`, `none` when absent (`KeyError`). -/
def Dict.get? (d : Dict) (v : ℕ) : Option (List ℕ) :=
  List.lookup v d

/-- `d[v]` where the caller guarantees the key is present. -/
def Dict.getD (d : Dict) (v : ℕ) : List ℕ :=
  (Dict.get? d v).getD []

/-! ## homology.py -/

/-- `homology.z_mod_2`: the zero test `x % 2 == 0` handed to sympy as
`iszerofunc`.  The boundary matrices it is applied to have exact integer
entries, and `Int.emod` agrees with Python `%` for the modulus `2`. -/
def z_mod_2 (x : ℤ) : Bool :=
  x % 2 == 0

/-- `homology.is_simp_cplx`: the validity check for a pair `(X, A)`.
It compares the number of length-1 faces with the number of vertices and
then checks that every nonempty strict subset of every face is present. -/
def is_simp_cplx (vertices : List ℕ) (faces : List Face) : Bool :=
  let singletons := faces.filter (fun σ => σ.length == 1)
  if singletons.length != vertices.length then false else
  let faces_set := (faces.map pysorted).dedup
  faces_set.all fun σ =>
    (List.range' 1 (σ.length - 1)).all fun k =>
      (combinations σ k).all fun τ => faces_set.contains (pysorted τ)

/-- `homology.A_n`: the faces of size `n+1`, each sorted, in the order the
face collection is iterated. -/
def A_n (n : ℤ) (faces : List Face) : List Face :=
  (faces.filter (fun σ => (σ.length : ℤ) == n + 1)).map pysorted

/-- A sympy matrix: dimensions together with an entry function.  The
matrices the sources build and decompose have exact integer entries
(`1`, `-1`, `0`), so entries are embedded as `ℤ`. -/
structure Mat where
  rows : ℕ
  cols : ℕ
  entry : ℕ → ℕ → ℤ

/-- `sp.Matrix.zeros`. -/
def Mat.zeros (r c : ℕ) : Mat :=
  ⟨r, c, fun _ _ => 0⟩

/-- Matrix entry assignment `m[r, c] = v`. -/
def Mat.set (m : Mat) (r c : ℕ) (v : ℤ) : Mat :=
  ⟨m.rows, m.cols, fun i j => if i = r ∧ j = c then v else m.entry i j⟩

/-- The dense rows of a matrix. -/
def Mat.toLists (m : Mat) : List (List ℤ) :=
  (List.range m.rows).map fun r => (List.range m.cols).map fun c => m.entry r c

/-- The deleted-vertex face of `homology.boundary`:
`tuple(sorted(sigma[:i] + sigma[i+1:]))`. -/
def delFace (σ : Face) (i : ℕ) : Face :=
  pysorted (σ.take i ++ σ.drop (i + 1))

/-- The body of the inner loop of `homology.boundary`: if the `i`-th
deleted-vertex face of the column simplex `σ` is a basis row, assign
`(-1)^i` at its row in column `col`. -/
def bStep (n_minus_one_simplices : List Face) (col : ℕ) (σ : Face) (m : Mat) (i : ℕ) : Mat :=
  if delFace σ i ∈ n_minus_one_simplices then
    m.set (List.indexOf (delFace σ i) n_minus_one_simplices) col ((-1) ^ i)
  else m

/-- `homology.boundary`: the matrix of the boundary map `∂_n` on the face
collection, with `(-1)^i` placed at the row of the `i`-th deleted-vertex
face of each column's simplex. -/
def boundary (n : ℤ) (faces : List Face) : Mat :=
  (A_n n faces).enum.foldl
    (fun m p => (List.range p.2.length).foldl (bStep (A_n (n - 1) faces) p.1 p.2) m)
    (Mat.zeros (A_n (n - 1) faces).length (A_n n faces).length)

/-- Modelled from the spec: the repository delegates rank and nullspace to
sympy, which the spec requires to be exact elimination with the zero test
chosen by the coefficient field ("rational arithmetic ... for the
rational-coefficient path", "XOR-based Gaussian elimination with zero-test
performed mod 2"), realized "via fraction-free (e.g., Bareiss-style)
exact-rational Gaussian elimination" (spec, design notes).
`elimRank iszero c rows` eliminates column by column (`c` = number of
columns), picking as pivot the first row whose leading entry `iszero`
rejects, clearing the remaining rows fraction-free by cross-multiplication
(which multiplies each such row by the nonzero pivot and hence preserves
rank over the fraction field), and returns the number of pivots. -/
def elimRank {α : Type} [CommRing α] [DecidableEq α] (iszero : α → Bool) :
    ℕ → List (List α) → ℕ
  | 0, _ => 0
  | c + 1, rows =>
    match rows.findIdx? (fun r => !iszero (r.headD 0)) with
    | none => elimRank iszero c (rows.map List.tail)
    | some i =>
      let p := rows.getD i []
      let rest := (rows.eraseIdx i).map fun r =>
        List.zipWith (fun a b => p.headD 0 * a - r.headD 0 * b) r.tail p.tail
      1 + elimRank iszero c rest

/-- The zero test of the rational path: exact comparison with `0`. -/
def qzero (x : ℤ) : Bool :=
  x == 0

/-- `homology.homology`: `nullity(∂_n) - rank(∂_{n+1})`.  As in the source,
the nullspace of `∂_n` is computed with the default (rational) zero test in
BOTH branches; only the rank of `∂_{n+1}` receives `iszerofunc=z_mod_2`
when `mod_2` is set. -/
def homology (n : ℤ) (faces : List Face) (mod_2 : Bool) : ℤ :=
  let delta_n := boundary n faces
  let delta_n_plus_one := boundary (n + 1) faces
  let ker_del_n : ℕ := delta_n.cols - elimRank qzero delta_n.cols delta_n.toLists
  let rank_del_n_plus_one : ℕ :=
    if mod_2 then elimRank z_mod_2 delta_n_plus_one.cols delta_n_plus_one.toLists
    else elimRank qzero delta_n_plus_one.cols delta_n_plus_one.toLists
  (ker_del_n : ℤ) - (rank_del_n_plus_one : ℤ)

/-- Modelled from the spec: the GF(2) path works on "bit matrices", i.e. the
boundary matrix with its (integer) entries reduced modulo 2. -/
def toGF2 (m : List (List ℤ)) : List (List (ZMod 2)) :=
  m.map fun r => r.map fun q => ((q : ZMod 2))

/-- Modelled from the spec: rank of a boundary matrix computed with
modulo-2 arithmetic (Gaussian elimination over GF(2), zero test mod 2). -/
def rank2 (m : Mat) : ℕ :=
  elimRank (fun x : ZMod 2 => x == 0) m.cols (toGF2 m.toLists)

/-- Modelled from the spec: `dim H_n` over GF(2), i.e.
`nullity(∂_n) - rank(∂_{n+1})` with both quantities computed with modulo-2
arithmetic, as the spec requires of the GF(2) path. -/
def homology_mod2_spec (n : ℤ) (faces : List Face) : ℤ :=
  let delta_n := boundary n faces
  let delta_n_plus_one := boundary (n + 1) faces
  ((delta_n.cols - rank2 delta_n : ℕ) : ℤ) - (rank2 delta_n_plus_one : ℤ)

/-- A reported triangle `(v, u, w)`. -/
abbrev Tri := ℕ × ℕ × ℕ

/-- A reported 4-cycle `(v, u, v', w)`. -/
abbrev Quad := ℕ × ℕ × ℕ × ℕ

/-- The vertex set of a reported triangle, canonically sorted. -/
def triSet (t : Tri) : List ℕ :=
  pyset [t.1, t.2.1, t.2.2]

/-- The vertex set of a reported 4-cycle, canonically sorted
(Python `frozenset({v, u, v_prime, w})`). -/
def quadSet (q : Quad) : List ℕ :=
  pyset [q.1, q.2.1, q.2.2.1, q.2.2.2]

/-- The ordered pairs `(l[x], l[y])` with `x < y`, in the order the nested
loops `for x in range(len(l)): for y in range(x+1, len(l)):` visit them. -/
def pairs {α : Type} : List α → List (α × α)
  | [] => []
  | a :: rest => (rest.map fun b => (a, b)) ++ pairs rest

/-- The innermost step of `homology.complete_simp_cplx`: append the sorted
subset to the face list and to `seen` unless it was seen already.  The
state pairs the growing face list with the `seen` set. -/
def subAdd (st : List Face × List Face) (subset : List ℕ) : List Face × List Face :=
  if st.2.contains (pysorted subset) then st
  else (st.1 ++ [pysorted subset], st.2 ++ [pysorted subset])

/-- Processing of one original face by `homology.complete_simp_cplx`:
every nonempty strict subset (each size `r` in `range(1, n)`, each
combination) is offered to `subAdd`. -/
def faceStep (st : List Face × List Face) (face : Face) : List Face × List Face :=
  (List.range' 1 (face.length - 1)).foldl
    (fun st r => (combinations face r).foldl subAdd st) st

/-- `homology.complete_simp_cplx`: one pass over the original face list,
appending every missing sorted nonempty strict subset of each original
face.  `seen` starts as the set of sorted original faces. -/
def complete_simp_cplx (faces : List Face) : List Face :=
  (faces.foldl faceStep (faces, faces.map pysorted)).1

/-! ## Bitset helpers (src/src/cycle_detection.py) -/

/-- The positions of the set bits of a natural, in increasing order.  This
is the order in which the loops `while mask: lsb = mask & -mask;
idx = lsb.bit_length() - 1; ...; mask ^= lsb` of the bitset detectors
visit them (every set-bit position of `m` is below `m`, since `2^p ≤ m`
forces `p < m`). -/
def bitIndices (m : ℕ) : List ℕ :=
  (List.range m).filter fun i => m.testBit i

/-- `a & ~((1 << k) - 1)`: clear the `k` lowest bits of a (nonnegative)
Python integer, written shift-style since the embedding keeps bitsets
in `ℕ`. -/
def clearLow (k a : ℕ) : ℕ :=
  (a >>> k) <<< k

/-- The bitset-building loop shared by the two bitset detectors:
`bits |= 1 << index[u]` for each listed neighbor `u` that is a known
vertex (`if u in index:`); unknown labels are skipped. -/
def bitsOf (vertices : List ℕ) (l : List ℕ) : ℕ :=
  l.foldl (fun bits u => if u ∈ vertices then bits ||| (1 <<< List.indexOf u vertices) else bits) 0

/-! ## src/src/cycle_detection.py (bitset variant) -/

namespace SrcCD

/-- The `neighbors_bits` table: one bitset per vertex, in sorted-vertex
order (`index[v]` is the rank of `v` among the sorted dict keys). -/
def neighborsBits (adj : Dict) : List ℕ :=
  let vertices := pysorted (Dict.keys adj)
  vertices.map fun v => bitsOf vertices (Dict.getD adj v)

/-- `src/src/cycle_detection.detect_3_cycles` (bitset variant): for each
`i`, each neighbor `j > i`, each common neighbor `k > j`, report
`(vertices[i], vertices[j], vertices[k])`. -/
def detect_3_cycles (adj : Dict) : List Tri :=
  let vertices := pysorted (Dict.keys adj)
  let nb := neighborsBits adj
  (List.range vertices.length).flatMap fun i =>
    (bitIndices (clearLow (i + 1) (nb.getD i 0))).flatMap fun j =>
      (bitIndices (clearLow (j + 1) ((nb.getD i 0) &&& (nb.getD j 0)))).map fun k =>
        (vertices.getD i 0, vertices.getD j 0, vertices.getD k 0)

/-- `src/src/cycle_detection.detect_4_cycles` (bitset variant): for each
non-adjacent pair `i < j` and each pair `u < w` of common-neighbor
indices, report `(vertices[i], vertices[u], vertices[j], vertices[w])`.
No deduplication of vertex sets is performed. -/
def detect_4_cycles (adj : Dict) : List Quad :=
  let vertices := pysorted (Dict.keys adj)
  let n := vertices.length
  let nb := neighborsBits adj
  (List.range n).flatMap fun i =>
    (List.range' (i + 1) (n - (i + 1))).flatMap fun j =>
      if ((nb.getD i 0) >>> j) &&& 1 = 1 then []
      else
        (pairs (bitIndices ((nb.getD i 0) &&& (nb.getD j 0)))).map fun uw =>
          (vertices.getD i 0, vertices.getD uw.1 0, vertices.getD j 0, vertices.getD uw.2 0)

end SrcCD

/-- Insertion into a Python set of faces embedded as a duplicate-free list
in insertion order (`A.add(face)`). -/
def setAdd (A : List Face) (f : Face) : List Face :=
  if f ∈ A then A else A ++ [f]

/-- The body of `build_simplicial_complex`, shared verbatim by
`src/cycle_detection.py` and `src/src/cycle_detection.py`; the two files
differ only in which detectors produce `tris` and `quads`.  Seeds the
vertex and edge faces, adds each detected triangle, and for each reported
4-cycle `(v, u, v', w)` adds the diagonal `{v, v'}` (when new) and the two
subdividing triangles. -/
def buildCore (vertices : List ℕ) (adj : Dict) (tris : List Tri) (quads : List Quad) :
    List ℕ × List Face :=
  let X := pysorted vertices
  let A0 := X.foldl (fun A v => setAdd A [v]) []
  let st1 := X.foldl
    (fun (st : List Face × List Face) v =>
      (pyset (Dict.getD adj v)).foldl
        (fun st u => if v < u then (setAdd st.1 [v, u], setAdd st.2 [v, u]) else st)
        st)
    (A0, [])
  let A2 := tris.foldl (fun A t => setAdd A [t.1, t.2.1, t.2.2]) st1.1
  let st3 := quads.foldl
    (fun (st : List Face × List Face) q =>
      let diag_edge := pysorted [q.1, q.2.2.1]
      let st' := if diag_edge ∈ st.2 then st else (setAdd st.1 diag_edge, st.2 ++ [diag_edge])
      let A' := setAdd st'.1 (pysorted [q.1, q.2.1, q.2.2.1])
      (setAdd A' (pysorted [q.1, q.2.2.1, q.2.2.2]), st'.2))
    (A2, st1.2)
  (X, st3.1)

/-- `src/src/cycle_detection.build_simplicial_complex`: builds `(X, A)`
from the graph using the bitset detectors. -/
def SrcCD.build_simplicial_complex (vertices : List ℕ) (adj : Dict) : List ℕ × List Face :=
  buildCore vertices adj (SrcCD.detect_3_cycles adj) (SrcCD.detect_4_cycles adj)

/-! ## src/cycle_detection.py (earlier, per-vertex-deletion variant) -/

namespace RootCD

/-- One `u` step of the triangle loop of `src/cycle_detection.detect_3_cycles`:
for `u > v`, scans `w ∈ Nv` with `w > u` and keeps those adjacent to `u`.
The lookup `neighbors[u]` happens inside the `w` loop, so a `KeyError`
(`none`) occurs exactly when some `w > u` exists and `u` is not a key. -/
def trisForU (nb : Dict) (v u : ℕ) (Nv : List ℕ) : Option (List Tri) :=
  if u ≤ v then some []
  else if (Nv.filter fun w => u < w).isEmpty then some []
  else
    match Dict.get? nb u with
    | none => none
    | some Nu =>
      some (((Nv.filter fun w => u < w).filter fun w => Nu.contains w).map fun w => (v, u, w))

/-- One accumulation step of the `u` loop: thread a previous `KeyError`,
or append the triangles found for `u`. -/
def triAcc (nb : Dict) (v : ℕ) (Nv : List ℕ) (acc : Option (List Tri)) (u : ℕ) :
    Option (List Tri) :=
  match acc with
  | none => none
  | some ts =>
    match trisForU nb v u Nv with
    | none => none
    | some ts2 => some (ts ++ ts2)

/-- The `u` loop over `Nv`, threading the possible `KeyError`. -/
def trisForV (nb : Dict) (v : ℕ) (Nv : List ℕ) : Option (List Tri) :=
  Nv.foldl (triAcc nb v Nv) (some [])

/-- The outer loop of `src/cycle_detection.detect_3_cycles` over the
vertices in sorted order; after processing `v` its entry is deleted
(`del neighbors[v]`). -/
def triScan : List ℕ → Dict → Option (List Tri)
  | [], _ => some []
  | v :: rest, nb =>
    match Dict.get? nb v with
    | none => none
    | some Nv =>
      match trisForV nb v Nv with
      | none => none
      | some ts =>
        match triScan rest (nb.filter fun p => p.1 ≠ v) with
        | none => none
        | some ts2 => some (ts ++ ts2)

/-- `src/cycle_detection.detect_3_cycles`: triangles `(v, u, w)` with
`v < u < w`, found by scanning each vertex's neighbor set; adjacency
entries naming unknown vertices can raise `KeyError` (`none`). -/
def detect_3_cycles (adj : Dict) : Option (List Tri) :=
  let neighbors : Dict := adj.map fun p => (p.1, pyset p.2)
  triScan (pysorted (Dict.keys neighbors)) neighbors

/-- The candidate 4-cycles of `src/cycle_detection.detect_4_cycles`, in
scan order, before the `seen` deduplication: for every non-adjacent pair
`v < v'` with at least two common neighbors, every pair `u < w` of common
neighbors contributes `(v, u, v', w)`. -/
def quadCandidates (nb : Dict) (vertices : List ℕ) : List Quad :=
  (List.range vertices.length).flatMap fun i =>
    (List.range' (i + 1) (vertices.length - (i + 1))).flatMap fun j =>
      let v := vertices.getD i 0
      let v' := vertices.getD j 0
      let Nv := Dict.getD nb v
      if Nv.contains v' then []
      else
        let common := Nv.filter fun x => (Dict.getD nb v').contains x
        if common.length < 2 then []
        else (pairs (pysorted common)).map fun uw => (v, uw.1, v', uw.2)

/-- The `seen` filter of `src/cycle_detection.detect_4_cycles`: a candidate
is appended only when its 4-vertex `frozenset` has not been seen, and the
`frozenset` is recorded. -/
def seenStep (st : List (List ℕ) × List Quad) (q : Quad) : List (List ℕ) × List Quad :=
  if st.1.contains (quadSet q) then st
  else (st.1 ++ [quadSet q], st.2 ++ [q])

/-- `src/cycle_detection.detect_4_cycles`: the candidates filtered by the
`seen` set of 4-vertex `frozenset`s, so each vertex set is reported at
most once. -/
def detect_4_cycles (adj : Dict) : List Quad :=
  let neighbors : Dict := adj.map fun p => (p.1, pyset p.2)
  let vertices := pysorted (Dict.keys neighbors)
  ((quadCandidates neighbors vertices).foldl seenStep ([], [])).2

/-- `src/cycle_detection.build_simplicial_complex`: as the bitset variant,
but its triangle detector can raise on dangling adjacency entries. -/
def build_simplicial_complex (vertices : List ℕ) (adj : Dict) :
    Option (List ℕ × List Face) :=
  match detect_3_cycles adj with
  | none => none
  | some tris => some (buildCore vertices adj tris (detect_4_cycles adj))

end RootCD

/-! ## simplicial_homology_from_graph.py (both variants) -/

/-- `src/src/simplicial_homology_from_graph.homology_from_graph`: builds
the complex with the bitset `build_simplicial_complex` of its directory
and returns `(H0, H1, H2)` over ℚ (`mod_2 = false`) or the mod-2 path. -/
def homology_from_graph (vertices : List ℕ) (adj : Dict) (mod_2 : Bool) : ℤ × ℤ × ℤ :=
  let XA := SrcCD.build_simplicial_complex vertices adj
  (homology 0 XA.2 mod_2, homology 1 XA.2 mod_2, homology 2 XA.2 mod_2)

/-- `simplicial_homology_from_graph.homology_from_graph` (repository
root variant): same computation on top of the earlier
`src/cycle_detection.py` builder. -/
def homology_from_graph_root (vertices : List ℕ) (adj : Dict) (mod_2 : Bool) :
    Option (ℤ × ℤ × ℤ) :=
  match RootCD.build_simplicial_complex vertices adj with
  | none => none
  | some XA => some (homology 0 XA.2 mod_2, homology 1 XA.2 mod_2, homology 2 XA.2 mod_2)

/-! ## src/src/preprocess.py -/

namespace PP

/-- The scan of `preprocess.preprocess` inside one iteration of the
`while changed:` loop: the first vertex `v` (in key order) for which some
other vertex `w` with `len(N(w)) ≥ len(N(v))` satisfies `N(v) ⊆ N(w) ∪ {w}`.
The loop body removes exactly one such `v` and restarts the scan. -/
def findRemovable (nb : List (ℕ × List ℕ)) : Option ℕ :=
  (nb.find? fun p =>
    nb.any fun q =>
      q.1 != p.1 && !(q.2.length < p.2.length) &&
        p.2.all fun x => x == q.1 || q.2.contains x).map Prod.fst

/-- Removal of `v`: `v` is discarded from `neighbors[u]` for each
`u ∈ N(v)` — a `KeyError` (`none`) when such a `u` is no longer a key —
and then `v`'s own entry is deleted. -/
def removeV (nb : List (ℕ × List ℕ)) (v : ℕ) : Option (List (ℕ × List ℕ)) :=
  let Nv := (List.lookup v nb).getD []
  if Nv.all (fun u => (nb.map Prod.fst).contains u) then
    some ((nb.map fun q => if q.1 ∈ Nv then (q.1, q.2.erase v) else q).filter
      fun q => q.1 ≠ v)
  else none

/-- The `while changed:` loop of `preprocess.preprocess`: remove the first
dominated vertex and restart the scan until no vertex is removable.  Each
round deletes one dict entry, so the number of entries decreases. -/
def ppLoop (nb : List (ℕ × List ℕ)) : Option (List (ℕ × List ℕ)) :=
  match h1 : findRemovable nb with
  | none => some nb
  | some v =>
    match h2 : removeV nb v with
    | none => none
    | some nb2 => ppLoop nb2
termination_by nb.length
decreasing_by
  have hm : v ∈ nb.map Prod.fst := by
    unfold findRemovable at h1
    rcases Option.map_eq_some'.mp h1 with ⟨p, hp, rfl⟩
    exact List.mem_map_of_mem Prod.fst (List.mem_of_find?_eq_some hp)
  unfold removeV at h2
  simp only at h2
  split at h2
  · rcases List.mem_map.mp hm with ⟨q, hq, hfst⟩
    have hlt : ((nb.map fun q => if q.1 ∈ (List.lookup v nb).getD [] then
        (q.1, q.2.erase v) else q).filter fun q => decide (q.1 ≠ v)).length <
        (nb.map fun q => if q.1 ∈ (List.lookup v nb).getD [] then
        (q.1, q.2.erase v) else q).length := by
      apply List.length_filter_lt_length_iff_exists.mpr
      subst hfst
      refine ⟨if q.1 ∈ (List.lookup q.1 nb).getD [] then (q.1, q.2.erase q.1) else q,
        List.mem_map_of_mem _ hq, ?_⟩
      by_cases hc : q.1 ∈ (List.lookup q.1 nb).getD [] <;> simp [hc]
    have := Option.some.inj h2
    subst this
    simpa using hlt
  · exact absurd h2 (by simp)

/-- `preprocess.preprocess`: converts neighborhoods to sets, removes
dominated vertices until none remains, and returns the remaining vertex
set together with the reduced adjacency (sorted neighbor lists). -/
def preprocess (adj : Dict) : Option (List ℕ × Dict) :=
  let neighbors := adj.map fun p => (p.1, pyset p.2)
  match ppLoop neighbors with
  | none => none
  | some nb => some (nb.map Prod.fst, nb.map fun p => (p.1, pysorted p.2))

end PP

/-! ## Spec-side definitions used to state the claims -/

/-- The same graph with every dangling adjacency label (one that is not a
key of the dict) removed from the adjacency lists. -/
def cleanDict (adj : Dict) : Dict :=
  adj.map fun p => (p.1, p.2.filter fun u => (Dict.keys adj).contains u)

/-- The per-dimension basis as claim C5 words it: the faces of size `n+1`
sorted into lexicographic tuple order (the code instead keeps them in the
order the face collection is iterated). -/
def A_n_sorted (n : ℤ) (faces : List Face) : List Face :=
  pysortedT (A_n n faces)

/-- The boundary matrix as claim C5 words it: the same construction as
`boundary`, but with both bases in sorted-tuple order. -/
def boundary_sorted (n : ℤ) (faces : List Face) : Mat :=
  (A_n_sorted n faces).enum.foldl
    (fun m p => (List.range p.2.length).foldl (bStep (A_n_sorted (n - 1) faces) p.1 p.2) m)
    (Mat.zeros (A_n_sorted (n - 1) faces).length (A_n_sorted n faces).length)

/-- Downward closure of a face collection, as the sources check it: every
nonempty strict subset (combination) of every face, viewed as a sorted
tuple, is again one of the faces. -/
def SubsetClosed (faces : List Face) : Prop :=
  ∀ σ ∈ (faces.map pysorted).dedup, ∀ k, 1 ≤ k → k < σ.length →
    ∀ τ ∈ combinations σ k, pysorted τ ∈ (faces.map pysorted).dedup

/-- The collection of faces of a face list, as a set of sorted tuples. -/
def faceSet (faces : List Face) : Finset (List ℕ) :=
  (faces.map pysorted).toFinset

/-- Claim C8's domination relation on a reduced adjacency: vertex `v` is
dominated by `w` when `N(v) ⊆ N(w) ∪ {w}`. -/
def Dominates (radj : Dict) (w v : ℕ) : Prop :=
  ∀ u ∈ Dict.getD radj v, u = w ∨ u ∈ Dict.getD radj w

/-- A well-formed symmetric adjacency state: unique keys, duplicate-free
neighbor lists that mention only keys, and symmetric adjacency (entry-wise:
whenever `u` is listed for `p`, some entry for `u` lists `p`). -/
def GoodState (nb : List (ℕ × List ℕ)) : Prop :=
  (Dict.keys nb).Nodup ∧ (∀ p ∈ nb, p.2.Nodup) ∧
    (∀ p ∈ nb, ∀ u ∈ p.2, u ∈ Dict.keys nb) ∧
    (∀ p ∈ nb, ∀ u ∈ p.2, ∃ q ∈ nb, q.1 = u ∧ p.1 ∈ q.2)

/-- The shapes of the faces `build_simplicial_complex` accumulates on a
well-formed symmetric graph: a singleton of a vertex, an increasing pair
of vertices, or an increasing triple of vertices all three of whose edges
are already in the face list. -/
def FaceShape (X : List ℕ) (A : List Face) (f : Face) : Prop :=
  (∃ v, v ∈ X ∧ f = [v]) ∨
  (∃ a b, a ∈ X ∧ b ∈ X ∧ a < b ∧ f = [a, b]) ∨
  (∃ a b c, a ∈ X ∧ b ∈ X ∧ c ∈ X ∧ a < b ∧ b < c ∧ f = [a, b, c] ∧
    [a, b] ∈ A ∧ [a, c] ∈ A ∧ [b, c] ∈ A)

/-- Invariant of the first two accumulation stages of
`build_simplicial_complex`: every face has a recognised shape, the seen
set is contained in the face list, the face list is duplicate-free, and
every vertex already has its singleton face. -/
def BuildInv0 (X : List ℕ) (st : List Face × List Face) : Prop :=
  (∀ f ∈ st.1, FaceShape X st.1 f) ∧ (∀ e ∈ st.2, e ∈ st.1) ∧
    st.1.Nodup ∧ (∀ v ∈ X, [v] ∈ st.1)

/-- Invariant of the triangle and 4-cycle stages of
`build_simplicial_complex`: the stage-two invariant plus the presence of
every sorted graph edge in the face list. -/
def BuildInv (X : List ℕ) (adj : Dict) (st : List Face × List Face) : Prop :=
  BuildInv0 X st ∧
    ∀ a b, a ∈ X → b ∈ pyset (Dict.getD adj a) → a < b → [a, b] ∈ st.1

/-! ## Concrete inputs referenced by the claims -/

/-- The six-vertex triangulation of the real projective plane: the 6
vertices, all 15 edges of `K6`, and 10 triangles, every edge lying in
exactly two of them.  A downward-closed face set whose mod-2 homology
differs from its rational homology. -/
def rp2Faces : List Face :=
  [[1],[2],[3],[4],[5],[6],
   [1,2],[1,3],[1,4],[1,5],[1,6],[2,3],[2,4],[2,5],[2,6],
   [3,4],[3,5],[3,6],[4,5],[4,6],[5,6],
   [1,2,3],[1,2,4],[1,3,5],[1,4,6],[1,5,6],
   [2,3,6],[2,4,5],[2,5,6],[3,4,5],[3,4,6]]

/-- The chordless 4-cycle 1-2-3-4-1 of claim C2. -/
def squareAdj : Dict :=
  [(1,[2,4]),(2,[1,3]),(3,[2,4]),(4,[1,3])]

/-- Two isolated vertices: the second is dominated by the first. -/
def twoPoints : Dict :=
  [(1,[]),(2,[])]

/-- The reduced adjacency `preprocess` produces from `twoPoints`. -/
def onePoint : Dict :=
  [(2,[])]

/-- A graph whose adjacency lists contain the dangling label `9`. -/
def dangling : Dict :=
  [(1,[2,9]),(2,[1])]

/-- An adjacency on which `preprocess` raises `KeyError`: vertex `1` is
dominated by `2` (both list only the dangling label `9`), and removing it
looks up `neighbors[9]`. -/
def crashDict : Dict :=
  [(1,[9]),(2,[9]),(3,[])]

/-- The pentagon (5-cycle), a domination fixpoint. -/
def pentagon : Dict :=
  [(1,[2,5]),(2,[1,3]),(3,[2,4]),(4,[5,3]),(5,[1,4])]

/-- The face list `[(2,), (1,), (1,2)]`: downward closed, but iterated in
an order that is not sorted-tuple order. -/
def unsortedFaces : List Face :=
  [[2],[1],[1,2]]

/-- The full triangle complex on `{1, 2, 3}`. -/
def triFaces : List Face :=
  [[1],[2],[3],[1,2],[1,3],[2,3],[1,2,3]]

/-! ## Basic lemmas about the embedding primitives -/

theorem pysorted_perm (l : List ℕ) : List.Perm (pysorted l) l :=
  List.perm_insertionSort _ l

theorem pysorted_sorted (l : List ℕ) : (pysorted l).Sorted (· ≤ ·) :=
  List.sorted_insertionSort _ l

theorem pysorted_eq_self {l : List ℕ} (h : l.Sorted (· ≤ ·)) : pysorted l = l :=
  List.eq_of_perm_of_sorted (pysorted_perm l) (pysorted_sorted l) h

theorem mem_pysorted {a : ℕ} {l : List ℕ} : a ∈ pysorted l ↔ a ∈ l :=
  (pysorted_perm l).mem_iff

theorem pysorted_eq_of_perm {l₁ l₂ : List ℕ} (h : List.Perm l₁ l₂) :
    pysorted l₁ = pysorted l₂ :=
  List.eq_of_perm_of_sorted ((pysorted_perm l₁).trans (h.trans (pysorted_perm l₂).symm))
    (pysorted_sorted l₁) (pysorted_sorted l₂)

theorem mem_pyset {a : ℕ} {l : List ℕ} : a ∈ pyset l ↔ a ∈ l := by
  unfold pyset
  rw [List.mem_dedup, mem_pysorted]

theorem pyset_nodup (l : List ℕ) : (pyset l).Nodup :=
  List.nodup_dedup _

theorem pyset_sorted (l : List ℕ) : (pyset l).Sorted (· ≤ ·) :=
  (pysorted_sorted l).sublist (List.dedup_sublist _)

theorem sorted_lt_of_le_nodup {l : List ℕ} (hs : l.Sorted (· ≤ ·)) (hn : l.Nodup) :
    l.Sorted (· < ·) := by
  have := List.Pairwise.and hs hn
  exact this.imp fun h => lt_of_le_of_ne h.1 h.2

theorem pyset_sorted_lt (l : List ℕ) : (pyset l).Sorted (· < ·) :=
  sorted_lt_of_le_nodup (pyset_sorted l) (pyset_nodup l)

theorem mem_combinations {τ l : List ℕ} {k : ℕ} :
    τ ∈ combinations l k ↔ List.Sublist τ l ∧ τ.length = k :=
  List.mem_sublistsLen

theorem mem_setAdd {A : List Face} {f a : Face} :
    a ∈ setAdd A f ↔ a ∈ A ∨ a = f := by
  unfold setAdd
  split
  · constructor
    · exact Or.inl
    · rintro (h | rfl) <;> [exact h; assumption]
  · simp

theorem setAdd_nodup {A : List Face} {f : Face} (h : A.Nodup) : (setAdd A f).Nodup := by
  unfold setAdd
  split
  · exact h
  · simpa [List.nodup_append, h] using (by assumption : ¬ f ∈ A)

theorem setAdd_sublist {A : List Face} {f : Face} : List.Sublist A (setAdd A f) := by
  unfold setAdd
  split
  · exact List.Sublist.refl A
  · exact List.sublist_append_left A [f]

theorem mem_foldl_setAdd {β : Type} (g : β → Face) (l : List β) (A : List Face) (a : Face) :
    a ∈ l.foldl (fun A x => setAdd A (g x)) A ↔ a ∈ A ∨ ∃ x ∈ l, a = g x := by
  induction l generalizing A with
  | nil => simp
  | cons b t ih =>
    rw [List.foldl_cons, ih, mem_setAdd]
    constructor
    · rintro (⟨h | rfl⟩ | ⟨x, hx, rfl⟩)
      · exact Or.inl h
      · exact Or.inr ⟨b, List.mem_cons_self b t, rfl⟩
      · exact Or.inr ⟨x, List.mem_cons_of_mem b hx, rfl⟩
    · rintro (h | ⟨x, hx, rfl⟩)
      · exact Or.inl (Or.inl h)
      · rcases List.mem_cons.mp hx with rfl | hx
        · exact Or.inl (Or.inr rfl)
        · exact Or.inr ⟨x, hx, rfl⟩

/-! ## Unfolding lemmas for the preprocess loop -/

theorem ppLoop_of_none {nb : List (ℕ × List ℕ)} (h : PP.findRemovable nb = none) :
    PP.ppLoop nb = some nb := by
  rw [PP.ppLoop, h]

theorem ppLoop_of_step {nb nb2 : List (ℕ × List ℕ)} {v : ℕ}
    (h1 : PP.findRemovable nb = some v) (h2 : PP.removeV nb v = some nb2) :
    PP.ppLoop nb = PP.ppLoop nb2 := by
  rw [PP.ppLoop]
  split
  · rename_i heq
    rw [h1] at heq
    exact absurd heq (by simp)
  · rename_i v' heq
    rw [h1] at heq
    injection heq with hv
    subst hv
    split
    · rename_i heq2
      rw [h2] at heq2
      exact absurd heq2 (by simp)
    · rename_i nb3 heq2
      rw [h2] at heq2
      injection heq2 with hnb
      rw [hnb]

theorem ppLoop_of_fail {nb : List (ℕ × List ℕ)} {v : ℕ}
    (h1 : PP.findRemovable nb = some v) (h2 : PP.removeV nb v = none) :
    PP.ppLoop nb = none := by
  rw [PP.ppLoop]
  split
  · rename_i heq
    rw [h1] at heq
    exact absurd heq (by simp)
  · rename_i v' heq
    rw [h1] at heq
    injection heq with hv
    subst hv
    split
    · rfl
    · rename_i nb3 heq2
      rw [h2] at heq2
      exact absurd heq2 (by simp)

/-! ## Claim C1 -/

/-- Claim C1 (code bug): the spec requires the GF(2) path to compute both
the nullity of `∂_n` and the rank of `∂_{n+1}` with modulo-2 arithmetic,
with no rational zero test.  The code passes `iszerofunc=z_mod_2` only to
the rank computation and leaves `delta_n.nullspace()` on the default
rational zero test.  On the projective-plane face set (a valid,
downward-closed complex) with `n = 2` the two disagree: the code's
`homology(2, faces, mod_2=True)` yields `0` (the rational nullity of `∂₂`
is `0`), while the all-mod-2 value of the claim is `1` (the mod-2 nullity
of `∂₂` is `1`); `∂₃` has no columns, so its rank is `0` on every path. -/
theorem claim_C1_code_eval :
    is_simp_cplx [1,2,3,4,5,6] rp2Faces = true ∧
    homology 2 rp2Faces true = 0 ∧
    homology_mod2_spec 2 rp2Faces = 1 ∧
    (boundary 3 rp2Faces).cols = 0 := by
  refine ⟨by decide, by decide, by decide, by decide⟩

/-! ## Claim C2 -/

/-- Claim C2 counterexample: the pipeline as cited —
`build_simplicial_complex` of `src/src/cycle_detection.py` followed by
rational homology — returns `(1, 0, 1)` on the chordless square, not
`(1, 0, 0)`: the bitset `detect_4_cycles` has no vertex-set deduplication,
reports the square once from each non-adjacent pair, and both diagonals
get filled, producing the 2-skeleton of the tetrahedron (a 2-sphere). -/
theorem claim_C2_counterexample :
    homology_from_graph [1,2,3,4] squareAdj false = (1, 0, 1) ∧
    homology_from_graph [1,2,3,4] squareAdj false ≠ (1, 0, 0) := by
  refine ⟨by decide, by decide⟩

/-- Claim C2, amended: on the chordless square, the earlier pipeline built
on `src/cycle_detection.py` (whose `detect_4_cycles` deduplicates reported
vertex sets) returns `(1, 0, 0)` — one diagonal, two triangles, a filled
disk — while the bitset pipeline of `src/src/` returns `(1, 0, 1)`. -/
theorem claim_C2_amended :
    homology_from_graph_root [1,2,3,4] squareAdj false = some (1, 0, 0) ∧
    homology_from_graph [1,2,3,4] squareAdj false = (1, 0, 1) := by
  refine ⟨by decide, by decide⟩

/-! ## Claim C4 (counterexample part) -/

/-- Claim C4 counterexample: on the chordless square — a 4-cycle both of
whose diagonals are non-edges — the bitset `detect_4_cycles` of
`src/src/cycle_detection.py` reports the same 4-element vertex set twice
(once per non-adjacent pair), so its output is not duplicate-free. -/
theorem claim_C4_counterexample :
    ¬ List.Pairwise (fun a b => quadSet a ≠ quadSet b) (SrcCD.detect_4_cycles squareAdj) := by
  decide

/-! ## Claim C5 (counterexample part) -/

/-- Claim C5 counterexample: the claim puts both bases of the boundary
matrix in sorted-tuple order, but `A_n` keeps the faces in the order the
face collection is iterated.  On the downward-closed face list
`[(2,), (1,), (1,2)]` the code's `∂₁` has `+1` in row 0 (the row of `(2,)`,
which comes first), whereas the claimed sorted-basis matrix has `-1`
there. -/
theorem claim_C5_counterexample :
    is_simp_cplx [1,2] unsortedFaces = true ∧
    A_n 0 unsortedFaces = [[2],[1]] ∧
    (boundary 1 unsortedFaces).entry 0 0 = 1 ∧
    (boundary_sorted 1 unsortedFaces).entry 0 0 = -1 := by
  refine ⟨by decide, by decide, by decide, by decide⟩

/-! ## Claim C6 (counterexample part) -/

/-- Claim C6 counterexample: dangling adjacency labels are not ignored by
`build_simplicial_complex`: the edge loop adds `(v, u)` for every listed
neighbor `u > v`, so the dangling label `9` produces the face `(1, 9)`,
which is absent when the same graph is cleaned first. -/
theorem claim_C6_counterexample :
    [1,9] ∈ (SrcCD.build_simplicial_complex [1,2] dangling).2 ∧
    [1,9] ∉ (SrcCD.build_simplicial_complex [1,2] (cleanDict dangling)).2 := by
  refine ⟨by decide, by decide⟩

/-! ## Claim C7 (counterexample part) -/

/-- Claim C7 counterexample: `is_simp_cplx` only compares the number of
length-1 faces with the number of vertices; it never checks which
vertices they name.  With vertices `[1, 2]` and faces `[(1,), (1,)]` it
returns `True` although vertex `2` has no singleton face. -/
theorem claim_C7_counterexample :
    is_simp_cplx [1,2] [[1],[1]] = true ∧
    [2] ∉ (([[1],[1]] : List Face).map pysorted) := by
  refine ⟨by decide, by decide⟩

/-! ## Claim C3 -/

/-- Claim C3 (code bug): the domination reduction does not preserve the
computed homology triple.  On two isolated vertices, vertex `1` is
dominated by vertex `2` (`N(1) = ∅ ⊆ N(2) ∪ {2}`), `preprocess` removes
it, and the pipeline returns `(1, 0, 0)` on the reduced graph but
`(2, 0, 0)` on the original: the reduction deletes a whole connected
component, changing `H0`. -/
theorem claim_C3_code_eval :
    PP.preprocess twoPoints = some ([2], onePoint) ∧
    homology_from_graph [1,2] twoPoints false = (2, 0, 0) ∧
    homology_from_graph [2] onePoint false = (1, 0, 0) := by
  refine ⟨?_, by decide, by decide⟩
  have hmap : twoPoints.map (fun p => (p.1, pyset p.2)) = [(1,[]),(2,[])] := by decide
  have e1 : PP.findRemovable [(1,[]),(2,[])] = some 1 := by decide
  have e2 : PP.removeV [(1,[]),(2,[])] 1 = some [(2,[])] := by decide
  have e3 : PP.findRemovable [(2,[])] = none := by decide
  unfold PP.preprocess
  rw [hmap]
  simp only [ppLoop_of_step e1 e2, ppLoop_of_none e3]
  decide

/-! ## Claim C8 (counterexample part) -/

/-- Claim C8 counterexample: `preprocess` does not return a reduced
adjacency for every finite adjacency.  On `{1: [9], 2: [9], 3: []}`
vertex `1` is found dominated by `2`, and its removal executes
`neighbors[9].discard(1)` — a `KeyError`, since `9` is not a key. -/
theorem claim_C8_counterexample :
    PP.preprocess crashDict = none := by
  have hmap : crashDict.map (fun p => (p.1, pyset p.2)) = [(1,[9]),(2,[9]),(3,[])] := by decide
  have e1 : PP.findRemovable [(1,[9]),(2,[9]),(3,[])] = some 1 := by decide
  have e2 : PP.removeV [(1,[9]),(2,[9]),(3,[])] 1 = none := by decide
  unfold PP.preprocess
  rw [hmap]
  simp only [ppLoop_of_fail e1 e2]

/-! ## Claim C6 (amended part): the bitset detectors ignore dangling labels -/

theorem lookup_map_snd (g : List ℕ → List ℕ) (l : Dict) (v : ℕ) :
    List.lookup v (l.map fun p => (p.1, g p.2)) = (List.lookup v l).map g := by
  induction l with
  | nil => rfl
  | cons p t ih =>
    by_cases h : v = p.1
    · subst h
      simp [List.lookup]
    · simp [List.lookup, List.lookup_cons, h, ih, Ne.symm h, beq_false_of_ne h]

theorem cleanDict_keys (adj : Dict) : Dict.keys (cleanDict adj) = Dict.keys adj := by
  unfold cleanDict Dict.keys
  rw [List.map_map]
  rfl

theorem bitsOf_filter (vertices : List ℕ) (P : ℕ → Bool)
    (hP : ∀ u, u ∈ vertices → P u = true) (l : List ℕ) :
    bitsOf vertices (l.filter P) = bitsOf vertices l := by
  unfold bitsOf
  suffices h : ∀ acc : ℕ, (l.filter P).foldl
      (fun bits u => if u ∈ vertices then bits ||| (1 <<< List.indexOf u vertices) else bits) acc =
      l.foldl
      (fun bits u => if u ∈ vertices then bits ||| (1 <<< List.indexOf u vertices) else bits) acc by
    exact h 0
  induction l with
  | nil => intro acc; rfl
  | cons a t ih =>
    intro acc
    by_cases hp : P a = true
    · rw [List.filter_cons_of_pos hp, List.foldl_cons, List.foldl_cons, ih]
    · have hv : a ∉ vertices := fun hmem => hp (hP a hmem)
      rw [List.filter_cons_of_neg (by simpa using hp), List.foldl_cons, if_neg hv, ih]

theorem getD_cleanDict (adj : Dict) (v : ℕ) :
    Dict.getD (cleanDict adj) v =
      (Dict.getD adj v).filter fun u => (Dict.keys adj).contains u := by
  unfold Dict.getD Dict.get? cleanDict
  rw [lookup_map_snd]
  cases List.lookup v adj <;> rfl

theorem neighborsBits_cleanDict (adj : Dict) :
    SrcCD.neighborsBits (cleanDict adj) = SrcCD.neighborsBits adj := by
  unfold SrcCD.neighborsBits
  rw [cleanDict_keys]
  refine List.map_congr_left fun v hv => ?_
  rw [getD_cleanDict]
  refine bitsOf_filter _ _ (fun u hu => ?_) _
  have : u ∈ Dict.keys adj := mem_pysorted.mp hu
  simpa using this

/-- Claim C6, amended: the two bitset detectors of
`src/src/cycle_detection.py` do silently ignore adjacency entries whose
label is outside the vertex set — on every graph they produce exactly the
output they produce on the cleaned graph.  (`build_simplicial_complex`,
by contrast, copies dangling labels into edge faces, and the earlier
`detect_3_cycles` of `src/cycle_detection.py` can raise `KeyError` on
them; see the counterexample.) -/
theorem claim_C6_amended (adj : Dict) :
    SrcCD.detect_3_cycles adj = SrcCD.detect_3_cycles (cleanDict adj) ∧
    SrcCD.detect_4_cycles adj = SrcCD.detect_4_cycles (cleanDict adj) := by
  constructor
  · unfold SrcCD.detect_3_cycles
    rw [cleanDict_keys, neighborsBits_cleanDict]
  · unfold SrcCD.detect_4_cycles
    rw [cleanDict_keys, neighborsBits_cleanDict]

/-! ## Claim C7 (amended part) -/

/-- Claim C7, amended: `is_simp_cplx(vertices, faces)` returns `True` iff
(a') the NUMBER of singleton faces in the face list equals the number of
entries of the vertex list — the code never checks which vertices the
singletons name — and (b) every nonempty strict subset of every face is
present in the collection. -/
theorem claim_C7_amended (vertices : List ℕ) (faces : List Face) :
    is_simp_cplx vertices faces = true ↔
      ((faces.filter fun σ => σ.length == 1).length = vertices.length ∧
        SubsetClosed faces) := by
  unfold is_simp_cplx SubsetClosed
  rcases eq_or_ne (List.filter (fun σ => σ.length == 1) faces).length vertices.length with h | h
  · rw [if_neg (by simp [h])]
    simp only [List.all_eq_true, h, true_and]
    constructor
    · intro H σ hσ k hk1 hk2 τ hτ
      have hc := H σ hσ k (List.mem_range'_1.mpr ⟨hk1, by omega⟩) τ hτ
      simpa using hc
    · intro H σ hσ k hk τ hτ
      have hk' := List.mem_range'_1.mp hk
      have hlen : 1 ≤ σ.length := by omega
      have := H σ hσ k hk'.1 (by omega) τ hτ
      simpa using this
  · rw [if_pos (by simp [h])]
    simp [h]

/-! ## Claim C9: complete_simp_cplx is idempotent -/

theorem pysorted_idem (l : List ℕ) : pysorted (pysorted l) = pysorted l :=
  pysorted_eq_self (pysorted_sorted l)

theorem foldl_pres {β : Type} (g : (List Face × List Face) → β → (List Face × List Face))
    (P : (List Face × List Face) → Prop) (hg : ∀ st x, P st → P (g st x)) :
    ∀ (l : List β) (st : List Face × List Face), P st → P (l.foldl g st)
  | [], _, h => h
  | a :: t, st, h => by
    rw [List.foldl_cons]
    exact foldl_pres g P hg t (g st a) (hg st a h)

theorem foldl_sublist_of_step {β : Type}
    (g : (List Face × List Face) → β → (List Face × List Face))
    (hg : ∀ st x, List.Sublist st.1 (g st x).1 ∧ List.Sublist st.2 (g st x).2) :
    ∀ (l : List β) (st : List Face × List Face),
      List.Sublist st.1 (l.foldl g st).1 ∧ List.Sublist st.2 (l.foldl g st).2
  | [], _ => ⟨List.Sublist.refl _, List.Sublist.refl _⟩
  | a :: t, st => by
    rw [List.foldl_cons]
    exact ⟨(hg st a).1.trans (foldl_sublist_of_step g hg t (g st a)).1,
           (hg st a).2.trans (foldl_sublist_of_step g hg t (g st a)).2⟩

theorem foldl_hit {β : Type} (g : (List Face × List Face) → β → (List Face × List Face))
    (P : (List Face × List Face) → Prop) (hpres : ∀ st x, P st → P (g st x))
    {x : β} (hbase : ∀ st, P (g st x)) :
    ∀ {l : List β}, x ∈ l → ∀ st, P (l.foldl g st)
  | [], hx, _ => absurd hx (List.not_mem_nil x)
  | a :: t, hx, st => by
    rw [List.foldl_cons]
    rcases List.mem_cons.mp hx with rfl | hx
    · exact foldl_pres g P hpres t (g st x) (hbase st)
    · exact foldl_hit g P hpres hbase hx (g st a)

theorem subAdd_sublist (st : List Face × List Face) (s : List ℕ) :
    List.Sublist st.1 (subAdd st s).1 ∧ List.Sublist st.2 (subAdd st s).2 := by
  unfold subAdd
  split
  · exact ⟨List.Sublist.refl _, List.Sublist.refl _⟩
  · exact ⟨List.sublist_append_left _ _, List.sublist_append_left _ _⟩

theorem faceStep_sublist (st : List Face × List Face) (f : Face) :
    List.Sublist st.1 (faceStep st f).1 ∧ List.Sublist st.2 (faceStep st f).2 := by
  unfold faceStep
  exact foldl_sublist_of_step _
    (fun st r => foldl_sublist_of_step subAdd subAdd_sublist _ st) _ st

theorem subAdd_seen_eq {st : List Face × List Face} (h : st.2 = st.1.map pysorted)
    (s : List ℕ) : (subAdd st s).2 = (subAdd st s).1.map pysorted := by
  unfold subAdd
  split
  · exact h
  · simp [h, pysorted_idem]

theorem complete_seen (faces : List Face) :
    (faces.foldl faceStep (faces, faces.map pysorted)).2 =
      (complete_simp_cplx faces).map pysorted := by
  unfold complete_simp_cplx
  refine foldl_pres faceStep (fun st => st.2 = st.1.map pysorted) ?_ faces _ rfl
  intro st f h
  unfold faceStep
  refine foldl_pres _ (fun st => st.2 = st.1.map pysorted) ?_ _ st h
  intro st r h
  refine foldl_pres subAdd (fun st => st.2 = st.1.map pysorted) ?_ _ st h
  intro st s h
  exact subAdd_seen_eq h s

theorem mem_subAdd_self (st : List Face × List Face) (s : List ℕ) :
    pysorted s ∈ (subAdd st s).2 := by
  unfold subAdd
  split
  · rename_i h
    simpa using h
  · simp

theorem foldl_subAdd_covers {c : List ℕ} {l : List (List ℕ)} (hc : c ∈ l)
    (st : List Face × List Face) : pysorted c ∈ (l.foldl subAdd st).2 := by
  refine foldl_hit subAdd (fun st => pysorted c ∈ st.2) ?_ ?_ hc st
  · exact fun st x h => (subAdd_sublist st x).2.mem h
  · exact fun st => mem_subAdd_self st c

theorem faceStep_covers {f : Face} {r : ℕ} {c : List ℕ} (hr1 : 1 ≤ r) (hr2 : r < f.length)
    (hc : c ∈ combinations f r) (st : List Face × List Face) :
    pysorted c ∈ (faceStep st f).2 := by
  unfold faceStep
  refine foldl_hit _ (fun st => pysorted c ∈ st.2) ?_ ?_
    (List.mem_range'_1.mpr ⟨hr1, by omega⟩) st
  · exact fun st x h => (foldl_sublist_of_step subAdd subAdd_sublist _ st).2.mem h
  · exact fun st => foldl_subAdd_covers hc st

theorem complete_covers {faces : List Face} {f : Face} {r : ℕ} {c : List ℕ}
    (hf : f ∈ faces) (hr1 : 1 ≤ r) (hr2 : r < f.length) (hc : c ∈ combinations f r) :
    pysorted c ∈ (complete_simp_cplx faces).map pysorted := by
  rw [← complete_seen]
  refine foldl_hit faceStep (fun st => pysorted c ∈ st.2) ?_ ?_ hf _
  · exact fun st x h => (faceStep_sublist st x).2.mem h
  · exact fun st => faceStep_covers hr1 hr2 hc st

theorem mem_foldl_subAdd_rev {m : Face} {l : List (List ℕ)} {st : List Face × List Face}
    (h : m ∈ (l.foldl subAdd st).1) : m ∈ st.1 ∨ ∃ c ∈ l, m = pysorted c := by
  induction l generalizing st with
  | nil => exact Or.inl h
  | cons a t ih =>
    rw [List.foldl_cons] at h
    rcases ih h with h1 | ⟨c, hc, rfl⟩
    · unfold subAdd at h1
      split at h1
      · exact Or.inl h1
      · rcases List.mem_append.mp h1 with h2 | h2
        · exact Or.inl h2
        · exact Or.inr ⟨a, List.mem_cons_self a t, by simpa using h2⟩
    · exact Or.inr ⟨c, List.mem_cons_of_mem a hc, rfl⟩

theorem mem_faceStep_rev {m : Face} {st : List Face × List Face} {f : Face}
    (h : m ∈ (faceStep st f).1) :
    m ∈ st.1 ∨ ∃ r, 1 ≤ r ∧ r < f.length ∧ ∃ c ∈ combinations f r, m = pysorted c := by
  unfold faceStep at h
  suffices H : ∀ (rs : List ℕ) (st : List Face × List Face),
      m ∈ (rs.foldl (fun st r => (combinations f r).foldl subAdd st) st).1 →
      m ∈ st.1 ∨ ∃ r ∈ rs, ∃ c ∈ combinations f r, m = pysorted c by
    rcases H _ _ h with h1 | ⟨r, hr, hrest⟩
    · exact Or.inl h1
    · have := List.mem_range'_1.mp hr
      exact Or.inr ⟨r, this.1, by omega, hrest⟩
  intro rs
  induction rs with
  | nil => exact fun st h => Or.inl h
  | cons a t ih =>
    intro st h
    rw [List.foldl_cons] at h
    rcases ih _ h with h1 | ⟨r, hr, hrest⟩
    · rcases mem_foldl_subAdd_rev h1 with h2 | ⟨c, hc, rfl⟩
      · exact Or.inl h2
      · exact Or.inr ⟨a, List.mem_cons_self a t, c, hc, rfl⟩
    · exact Or.inr ⟨r, List.mem_cons_of_mem a hr, hrest⟩

theorem mem_complete_rev {m : Face} {faces : List Face} (h : m ∈ complete_simp_cplx faces) :
    m ∈ faces ∨ ∃ f ∈ faces, ∃ r, 1 ≤ r ∧ r < f.length ∧
      ∃ c ∈ combinations f r, m = pysorted c := by
  unfold complete_simp_cplx at h
  suffices H : ∀ (l : List Face) (st : List Face × List Face),
      m ∈ (l.foldl faceStep st).1 →
      m ∈ st.1 ∨ ∃ f ∈ l, ∃ r, 1 ≤ r ∧ r < f.length ∧
        ∃ c ∈ combinations f r, m = pysorted c by
    exact H faces (faces, faces.map pysorted) h
  intro l
  induction l with
  | nil => exact fun st h => Or.inl h
  | cons a t ih =>
    intro st h
    rw [List.foldl_cons] at h
    rcases ih _ h with h1 | ⟨f, hf, hrest⟩
    · rcases mem_faceStep_rev h1 with h2 | ⟨r, hr1, hr2, c, hc, rfl⟩
      · exact Or.inl h2
      · exact Or.inr ⟨a, List.mem_cons_self a t, r, hr1, hr2, c, hc, rfl⟩
    · exact Or.inr ⟨f, List.mem_cons_of_mem a hf, hrest⟩

theorem complete_closed {faces : List Face} {m t : Face} {k : ℕ}
    (hm : m ∈ complete_simp_cplx faces) (hk1 : 1 ≤ k) (hk2 : k < m.length)
    (ht : t ∈ combinations m k) :
    pysorted t ∈ (complete_simp_cplx faces).map pysorted := by
  rcases mem_complete_rev hm with hf | ⟨f, hf, r, hr1, hr2, c, hc, rfl⟩
  · exact complete_covers hf hk1 hk2 ht
  · rcases mem_combinations.mp ht with ⟨hts, htl⟩
    rcases mem_combinations.mp hc with ⟨hcs, hcl⟩
    have hsub : List.Subperm t f :=
      ((hts.subperm.trans (pysorted_perm c).subperm).trans hcs.subperm)
    rcases hsub with ⟨c', hcperm, hcsub⟩
    have hclen : c'.length = k := by rw [hcperm.length_eq, htl]
    have hmem : c' ∈ combinations f k := mem_combinations.mpr ⟨hcsub, hclen⟩
    have hklt : k < f.length := by
      have h1 : (pysorted c).length = c.length := (pysorted_perm c).length_eq
      omega
    have := complete_covers hf hk1 hklt hmem
    rwa [pysorted_eq_of_perm hcperm] at this

/-- Claim C9 (confirmed): `complete_simp_cplx` is idempotent — applying it
twice yields the same face set (the same collection of sorted tuples) as
applying it once.  After one pass every nonempty strict subset of every
listed face is present, so a second pass finds nothing to add. -/
theorem claim_C9_idempotent (faces : List Face) :
    faceSet (complete_simp_cplx (complete_simp_cplx faces)) =
      faceSet (complete_simp_cplx faces) := by
  unfold faceSet
  apply Finset.ext
  intro x
  simp only [List.mem_toFinset, List.mem_map]
  constructor
  · rintro ⟨m, hm, rfl⟩
    rcases mem_complete_rev hm with hf | ⟨f, hf, r, hr1, hr2, c, hc, rfl⟩
    · exact ⟨m, hf, rfl⟩
    · have h3 : pysorted c ∈ (complete_simp_cplx faces).map pysorted :=
        complete_closed hf hr1 hr2 hc
      rcases List.mem_map.mp h3 with ⟨g, hg, he⟩
      exact ⟨g, hg, by rw [he, pysorted_idem]⟩
  · rintro ⟨m, hm, rfl⟩
    have hsub : List.Sublist (complete_simp_cplx faces)
        (complete_simp_cplx (complete_simp_cplx faces)) :=
      (foldl_sublist_of_step faceStep faceStep_sublist (complete_simp_cplx faces)
        (complete_simp_cplx faces, (complete_simp_cplx faces).map pysorted)).1
    exact ⟨m, hsub.mem hm, rfl⟩

/-! ## Claim C4 (amended part): per-scan uniqueness of reported cycles -/

theorem mem_bitIndices {m p : ℕ} : p ∈ bitIndices m ↔ m.testBit p = true := by
  unfold bitIndices
  simp only [List.mem_filter, List.mem_range]
  constructor
  · exact fun h => h.2
  · intro h
    refine ⟨?_, h⟩
    calc p < 2 ^ p := Nat.lt_two_pow p
    _ ≤ m := Nat.testBit_implies_ge h

theorem bitIndices_nodup (m : ℕ) : (bitIndices m).Nodup :=
  (List.nodup_range m).filter _

theorem testBit_clearLow {k a p : ℕ} :
    (clearLow k a).testBit p = (decide (k ≤ p) && a.testBit p) := by
  unfold clearLow
  rw [Nat.testBit_shiftLeft, Nat.testBit_shiftRight]
  by_cases h : k ≤ p
  · simp [h, Nat.add_sub_cancel' h]
  · simp [h]

theorem testBit_bitsOf {vertices l : List ℕ} {p : ℕ} :
    (bitsOf vertices l).testBit p = true ↔
      ∃ u ∈ l, u ∈ vertices ∧ List.indexOf u vertices = p := by
  unfold bitsOf
  suffices H : ∀ acc : ℕ, ((l.foldl (fun bits u =>
      if u ∈ vertices then bits ||| (1 <<< List.indexOf u vertices) else bits) acc).testBit p
        = true) ↔
      (acc.testBit p = true ∨ ∃ u ∈ l, u ∈ vertices ∧ List.indexOf u vertices = p) by
    simpa [Nat.zero_testBit] using H 0
  intro acc
  induction l generalizing acc with
  | nil => simp
  | cons a t ih =>
    rw [List.foldl_cons]
    by_cases ha : a ∈ vertices
    · rw [if_pos ha, ih]
      rw [Nat.testBit_or, Nat.one_shiftLeft, Nat.testBit_two_pow]
      constructor
      · rintro (h | h)
        · rcases Bool.or_eq_true_iff.mp h with h | h
          · exact Or.inl h
          · exact Or.inr ⟨a, List.mem_cons_self a t, ha, of_decide_eq_true h⟩
        · rcases h with ⟨u, hu, h2, h3⟩
          exact Or.inr ⟨u, List.mem_cons_of_mem a hu, h2, h3⟩
      · rintro (h | ⟨u, hu, h2, h3⟩)
        · exact Or.inl (Bool.or_eq_true_iff.mpr (Or.inl h))
        · rcases List.mem_cons.mp hu with rfl | hu
          · exact Or.inl (Bool.or_eq_true_iff.mpr (Or.inr (decide_eq_true h3)))
          · exact Or.inr ⟨u, hu, h2, h3⟩
    · rw [if_neg ha, ih]
      constructor
      · rintro (h | ⟨u, hu, h2, h3⟩)
        · exact Or.inl h
        · exact Or.inr ⟨u, List.mem_cons_of_mem a hu, h2, h3⟩
      · rintro (h | ⟨u, hu, h2, h3⟩)
        · exact Or.inl h
        · rcases List.mem_cons.mp hu with rfl | hu
          · exact absurd h2 ha
          · exact Or.inr ⟨u, hu, h2, h3⟩

theorem triSet_of_strict {t : Tri} (h1 : t.1 < t.2.1) (h2 : t.2.1 < t.2.2) :
    triSet t = [t.1, t.2.1, t.2.2] := by
  unfold triSet pyset
  have hs : ([t.1, t.2.1, t.2.2] : List ℕ).Sorted (· ≤ ·) := by
    simp [List.sorted_cons] <;> omega
  rw [pysorted_eq_self hs]
  refine List.dedup_eq_self.mpr ?_
  simp [List.nodup_cons] <;> omega

theorem triSet_ne_of_strict {t₁ t₂ : Tri}
    (a1 : t₁.1 < t₁.2.1) (a2 : t₁.2.1 < t₁.2.2)
    (b1 : t₂.1 < t₂.2.1) (b2 : t₂.2.1 < t₂.2.2) (hne : t₁ ≠ t₂) :
    triSet t₁ ≠ triSet t₂ := by
  intro h
  rw [triSet_of_strict a1 a2, triSet_of_strict b1 b2] at h
  injection h with h1 h'
  injection h' with h2 h''
  injection h'' with h3 _
  exact hne (Prod.ext h1 (Prod.ext h2 h3))

theorem srcCD_detect3_pairwise {adj : Dict} (hk : (Dict.keys adj).Nodup) :
    List.Pairwise (fun a b => triSet a ≠ triSet b) (SrcCD.detect_3_cycles adj) := by
  have hVnd : (pysorted (Dict.keys adj)).Nodup := (pysorted_perm _).nodup_iff.mpr hk
  have hVs : (pysorted (Dict.keys adj)).Sorted (· < ·) :=
    sorted_lt_of_le_nodup (pysorted_sorted _) hVnd
  have hmono : ∀ i j : ℕ, i < j → j < (pysorted (Dict.keys adj)).length →
      (pysorted (Dict.keys adj)).getD i 0 < (pysorted (Dict.keys adj)).getD j 0 := by
    intro i j hij hj
    have hi : i < (pysorted (Dict.keys adj)).length := lt_trans hij hj
    rw [List.getD_eq_getElem _ 0 hi, List.getD_eq_getElem _ 0 hj]
    exact List.Sorted.get_strictMono hVs (show (⟨i, hi⟩ : Fin _) < ⟨j, hj⟩ from hij)
  have hbound : ∀ i p : ℕ,
      ((SrcCD.neighborsBits adj).getD i 0).testBit p = true →
        p < (pysorted (Dict.keys adj)).length := by
    intro i p hp
    by_cases hi : i < (SrcCD.neighborsBits adj).length
    · rw [List.getD_eq_getElem _ 0 hi] at hp
      unfold SrcCD.neighborsBits at hp hi
      rw [List.getElem_map] at hp
      rcases testBit_bitsOf.mp hp with ⟨u, _, hu2, hu3⟩
      rw [← hu3]
      exact List.indexOf_lt_length.mpr hu2
    · rw [List.getD_eq_default _ 0 (by omega)] at hp
      rw [Nat.zero_testBit] at hp
      cases hp
  have hjmem : ∀ i j : ℕ,
      j ∈ bitIndices (clearLow (i + 1) ((SrcCD.neighborsBits adj).getD i 0)) →
        i < j ∧ j < (pysorted (Dict.keys adj)).length := by
    intro i j hj
    have h := mem_bitIndices.mp hj
    rw [testBit_clearLow] at h
    rcases Bool.and_eq_true_iff.mp h with ⟨h1, h2⟩
    exact ⟨by have := of_decide_eq_true h1; omega, hbound i j h2⟩
  have hkmem : ∀ i j k : ℕ,
      k ∈ bitIndices (clearLow (j + 1)
          (((SrcCD.neighborsBits adj).getD i 0) &&& ((SrcCD.neighborsBits adj).getD j 0))) →
        j < k ∧ k < (pysorted (Dict.keys adj)).length := by
    intro i j k hkm
    have h := mem_bitIndices.mp hkm
    rw [testBit_clearLow] at h
    rcases Bool.and_eq_true_iff.mp h with ⟨h1, h2⟩
    rw [Nat.testBit_and] at h2
    rcases Bool.and_eq_true_iff.mp h2 with ⟨h2a, _⟩
    exact ⟨by have := of_decide_eq_true h1; omega, hbound i k h2a⟩
  show List.Pairwise (fun a b => triSet a ≠ triSet b)
    ((List.range (pysorted (Dict.keys adj)).length).flatMap fun i =>
      (bitIndices (clearLow (i + 1) ((SrcCD.neighborsBits adj).getD i 0))).flatMap fun j =>
        (bitIndices (clearLow (j + 1)
            (((SrcCD.neighborsBits adj).getD i 0) &&& ((SrcCD.neighborsBits adj).getD j 0)))).map
          fun k => ((pysorted (Dict.keys adj)).getD i 0, (pysorted (Dict.keys adj)).getD j 0,
            (pysorted (Dict.keys adj)).getD k 0))
  rw [List.pairwise_bind]
  constructor
  · intro i hi
    have hin : i < (pysorted (Dict.keys adj)).length := List.mem_range.mp hi
    rw [List.pairwise_bind]
    constructor
    · intro j hj
      rcases hjmem i j hj with ⟨hij, hjn⟩
      rw [List.pairwise_map]
      refine (bitIndices_nodup _).imp_of_mem ?_
      intro k k' hkm hkm' hne
      rcases hkmem i j k hkm with ⟨hjk, hkn⟩
      rcases hkmem i j k' hkm' with ⟨hjk', hkn'⟩
      refine triSet_ne_of_strict (hmono i j hij hjn) (hmono j k hjk hkn)
        (hmono i j hij hjn) (hmono j k' hjk' hkn') ?_
      intro he
      injection he with h1 h'
      injection h' with h2 h3
      rcases Nat.lt_trichotomy k k' with hlt | heq | hgt
      · exact absurd h3 (Nat.ne_of_lt (hmono k k' hlt hkn'))
      · exact hne heq
      · exact absurd h3.symm (Nat.ne_of_lt (hmono k' k hgt hkn))
    · refine (bitIndices_nodup _).imp_of_mem ?_
      intro j j' hjm hjm' hne x hx y hy
      rcases hjmem i j hjm with ⟨hij, hjn⟩
      rcases hjmem i j' hjm' with ⟨hij', hjn'⟩
      rcases List.mem_map.mp hx with ⟨k, hkm, rfl⟩
      rcases List.mem_map.mp hy with ⟨k', hkm', rfl⟩
      rcases hkmem i j k hkm with ⟨hjk, hkn⟩
      rcases hkmem i j' k' hkm' with ⟨hjk', hkn'⟩
      refine triSet_ne_of_strict (hmono i j hij hjn) (hmono j k hjk hkn)
        (hmono i j' hij' hjn') (hmono j' k' hjk' hkn') ?_
      intro he
      injection he with h1 h'
      injection h' with h2 h3
      rcases Nat.lt_trichotomy j j' with hlt | heq | hgt
      · exact absurd h2 (Nat.ne_of_lt (hmono j j' hlt hjn'))
      · exact hne heq
      · exact absurd h2.symm (Nat.ne_of_lt (hmono j' j hgt hjn))
  · refine (List.pairwise_lt_range _).imp_of_mem ?_
    intro i i' hi hi' hlt x hx y hy
    have hin' : i' < (pysorted (Dict.keys adj)).length := List.mem_range.mp hi'
    rcases List.mem_flatMap.mp hx with ⟨j, hjm, hx2⟩
    rcases List.mem_map.mp hx2 with ⟨k, hkm, rfl⟩
    rcases List.mem_flatMap.mp hy with ⟨j', hjm', hy2⟩
    rcases List.mem_map.mp hy2 with ⟨k', hkm', rfl⟩
    rcases hjmem i j hjm with ⟨hij, hjn⟩
    rcases hjmem i' j' hjm' with ⟨hij', hjn'⟩
    rcases hkmem i j k hkm with ⟨hjk, hkn⟩
    rcases hkmem i' j' k' hkm' with ⟨hjk', hkn'⟩
    refine triSet_ne_of_strict (hmono i j hij hjn) (hmono j k hjk hkn)
      (hmono i' j' hij' hjn') (hmono j' k' hjk' hkn') ?_
    intro he
    injection he with h1 h'
    exact absurd h1 (Nat.ne_of_lt (hmono i i' hlt hin'))

theorem seenStep_fold_pairwise (l : List Quad) :
    ∀ st : List (List ℕ) × List Quad,
      (∀ q ∈ st.2, quadSet q ∈ st.1) →
      List.Pairwise (fun a b => quadSet a ≠ quadSet b) st.2 →
      (∀ q ∈ (l.foldl RootCD.seenStep st).2, quadSet q ∈ (l.foldl RootCD.seenStep st).1) ∧
        List.Pairwise (fun a b => quadSet a ≠ quadSet b) (l.foldl RootCD.seenStep st).2 := by
  induction l with
  | nil => exact fun st h1 h2 => ⟨h1, h2⟩
  | cons q t ih =>
    intro st h1 h2
    rw [List.foldl_cons]
    unfold RootCD.seenStep
    split
    · exact ih st h1 h2
    · rename_i hc
      refine ih _ ?_ ?_
      · intro q' hq'
        rcases List.mem_append.mp hq' with h | h
        · exact List.mem_append_left _ (h1 q' h)
        · rw [List.mem_singleton.mp h]
          exact List.mem_append_right _ (List.mem_singleton_self _)
      · rw [List.pairwise_append]
        refine ⟨h2, List.pairwise_singleton _ _, ?_⟩
        intro a ha b hb
        rw [List.mem_singleton.mp hb]
        intro he
        exact hc (by simpa using (he ▸ h1 a ha))

theorem rootCD_detect4_pairwise (adj : Dict) :
    List.Pairwise (fun a b => quadSet a ≠ quadSet b) (RootCD.detect_4_cycles adj) := by
  unfold RootCD.detect_4_cycles
  exact (seenStep_fold_pairwise _ ([], []) (by simp) List.Pairwise.nil).2

theorem lookup_mem {l : Dict} {k : ℕ} {b : List ℕ} (h : List.lookup k l = some b) :
    (k, b) ∈ l := by
  induction l with
  | nil => simp [List.lookup] at h
  | cons p t ih =>
    obtain ⟨k', v⟩ := p
    by_cases hk : k = k'
    · subst hk
      simp [List.lookup] at h
      rw [h]
      exact List.mem_cons_self _ _
    · simp [List.lookup, beq_false_of_ne hk] at h
      exact List.mem_cons_of_mem _ (ih h)

theorem trisForU_shape {nb : Dict} {v u : ℕ} {Nv : List ℕ} {ts : List Tri}
    (h : RootCD.trisForU nb v u Nv = some ts) :
    ∀ t ∈ ts, t.1 = v ∧ t.2.1 = u ∧ v < u ∧ u < t.2.2 ∧ t.2.2 ∈ Nv := by
  unfold RootCD.trisForU at h
  split at h
  · cases Option.some.inj h
    intro t ht
    cases ht
  · split at h
    · cases Option.some.inj h
      intro t ht
      cases ht
    · split at h
      · cases h
      · rename_i hle hemp Nu heq
        cases Option.some.inj h
        intro t ht
        rcases List.mem_map.mp ht with ⟨w, hw, rfl⟩
        rcases List.mem_filter.mp hw with ⟨hw1, _⟩
        rcases List.mem_filter.mp hw1 with ⟨hwNv, hwgt⟩
        exact ⟨rfl, rfl, by omega, by simpa using hwgt, hwNv⟩

theorem trisForU_nodup {nb : Dict} {v u : ℕ} {Nv : List ℕ} {ts : List Tri}
    (hNv : Nv.Nodup) (h : RootCD.trisForU nb v u Nv = some ts) : ts.Nodup := by
  unfold RootCD.trisForU at h
  split at h
  · cases Option.some.inj h
    exact List.nodup_nil
  · split at h
    · cases Option.some.inj h
      exact List.nodup_nil
    · split at h
      · cases h
      · cases Option.some.inj h
        refine List.Nodup.map_on ?_ (((hNv.filter _).filter _))
        intro x _ y _ he
        exact congrArg (fun t : Tri => t.2.2) he

theorem triAcc_fold_none (nb : Dict) (v : ℕ) (Nv : List ℕ) :
    ∀ us : List ℕ, us.foldl (RootCD.triAcc nb v Nv) none = none := by
  intro us
  induction us with
  | nil => rfl
  | cons u t ih => rw [List.foldl_cons]; exact ih

theorem trisForV_aux {nb : Dict} {v : ℕ} {Nv : List ℕ} (hNv : Nv.Nodup) :
    ∀ (us : List ℕ) (ts0 ts : List Tri),
      us.foldl (RootCD.triAcc nb v Nv) (some ts0) = some ts →
      (∀ t ∈ ts0, t.1 = v ∧ v < t.2.1 ∧ t.2.1 < t.2.2 ∧ t.2.1 ∈ Nv) →
      ts0.Nodup →
      (∀ t ∈ ts0, t.2.1 ∉ us) →
      us.Nodup →
      (∀ u ∈ us, u ∈ Nv) →
      ((∀ t ∈ ts, t.1 = v ∧ v < t.2.1 ∧ t.2.1 < t.2.2 ∧ t.2.1 ∈ Nv) ∧ ts.Nodup) := by
  intro us
  induction us with
  | nil =>
    intro ts0 ts h hP hnd _ _ _
    cases Option.some.inj h
    exact ⟨hP, hnd⟩
  | cons u us' ih =>
    intro ts0 ts h hP hnd hdis husnd hsub
    rw [List.foldl_cons] at h
    rcases hU : RootCD.trisForU nb v u Nv with _ | ts2
    · rw [show RootCD.triAcc nb v Nv (some ts0) u = none by
        unfold RootCD.triAcc; rw [hU]] at h
      rw [triAcc_fold_none] at h
      cases h
    · rw [show RootCD.triAcc nb v Nv (some ts0) u = some (ts0 ++ ts2) by
        unfold RootCD.triAcc; rw [hU]] at h
      have huNv : u ∈ Nv := hsub u (List.mem_cons_self u us')
      have hshape := trisForU_shape hU
      refine ih (ts0 ++ ts2) ts h ?_ ?_ ?_ (List.Nodup.of_cons husnd)
        (fun x hx => hsub x (List.mem_cons_of_mem u hx))
      · intro t ht
        rcases List.mem_append.mp ht with ht | ht
        · exact hP t ht
        · rcases hshape t ht with ⟨h1, h2, h3, h4, _⟩
          exact ⟨h1, by omega, by omega, h2 ▸ huNv⟩
      · rw [List.nodup_append]
        refine ⟨hnd, trisForU_nodup hNv hU, ?_⟩
        intro a ha ha'
        have h1 : a.2.1 ≠ u := by
          have := hdis a ha
          simp only [List.mem_cons, not_or] at this
          exact this.1
        rcases hshape a ha' with ⟨_, h2, _, _, _⟩
        exact h1 h2
      · intro t ht
        rcases List.mem_append.mp ht with ht | ht
        · have := hdis t ht
          simp only [List.mem_cons, not_or] at this
          exact this.2
        · rcases hshape t ht with ⟨_, h2, _, _, _⟩
          rw [h2]
          exact (List.nodup_cons.mp husnd).1

theorem triScan_props :
    ∀ (vs : List ℕ) (nb : Dict) (ts : List Tri),
      vs.Nodup → (∀ p ∈ nb, p.2.Nodup) →
      RootCD.triScan vs nb = some ts →
      ((∀ t ∈ ts, t.1 ∈ vs ∧ t.1 < t.2.1 ∧ t.2.1 < t.2.2) ∧ ts.Nodup) := by
  intro vs
  induction vs with
  | nil =>
    intro nb ts _ _ h
    cases Option.some.inj h
    exact ⟨fun t ht => absurd ht (List.not_mem_nil t), List.nodup_nil⟩
  | cons v rest ih =>
    intro nb ts hnd hval h
    unfold RootCD.triScan at h
    split at h
    · cases h
    · rename_i Nv heq1
      split at h
      · cases h
      · rename_i ts1 heq2
        split at h
        · cases h
        · rename_i ts2 heq3
          cases Option.some.inj h
          have hNvnd : Nv.Nodup := hval (v, Nv) (lookup_mem heq1)
          have h1 := trisForV_aux hNvnd Nv [] ts1 heq2
            (fun t ht => absurd ht (List.not_mem_nil t)) List.nodup_nil
            (fun t ht => absurd ht (List.not_mem_nil t)) hNvnd (fun u hu => hu)
          have h2 := ih (nb.filter fun p => p.1 ≠ v) ts2 (List.Nodup.of_cons hnd)
            (fun p hp => hval p (List.mem_of_mem_filter hp)) heq3
          constructor
          · intro t ht
            rcases List.mem_append.mp ht with ht | ht
            · rcases h1.1 t ht with ⟨e1, e2, e3, _⟩
              exact ⟨by rw [e1]; exact List.mem_cons_self v rest, by omega, e3⟩
            · rcases h2.1 t ht with ⟨e1, e2, e3⟩
              exact ⟨List.mem_cons_of_mem v e1, e2, e3⟩
          · rw [List.nodup_append]
            refine ⟨h1.2, h2.2, ?_⟩
            intro a ha ha'
            have e1 : a.1 = v := (h1.1 a ha).1
            have e2 : a.1 ∈ rest := (h2.1 a ha').1
            rw [e1] at e2
            exact (List.nodup_cons.mp hnd).1 e2

theorem rootCD_detect3_pairwise {adj : Dict} {ts : List Tri} (hk : (Dict.keys adj).Nodup)
    (h : RootCD.detect_3_cycles adj = some ts) :
    List.Pairwise (fun a b => triSet a ≠ triSet b) ts := by
  unfold RootCD.detect_3_cycles at h
  have hkeys : Dict.keys (adj.map fun p => (p.1, pyset p.2)) = Dict.keys adj := by
    unfold Dict.keys
    rw [List.map_map]
    rfl
  have hvs : (pysorted (Dict.keys (adj.map fun p => (p.1, pyset p.2)))).Nodup := by
    rw [hkeys]
    exact (pysorted_perm _).nodup_iff.mpr hk
  have hvals : ∀ p ∈ (adj.map fun p => (p.1, pyset p.2)), p.2.Nodup := by
    intro p hp
    rcases List.mem_map.mp hp with ⟨q, _, rfl⟩
    exact pyset_nodup q.2
  rcases triScan_props _ _ _ hvs hvals h with ⟨hshape, hnd⟩
  refine hnd.imp_of_mem ?_
  intro a b ha hb hne
  rcases hshape a ha with ⟨_, a1, a2⟩
  rcases hshape b hb with ⟨_, b1, b2⟩
  exact triSet_ne_of_strict a1 a2 b1 b2 hne

/-- Claim C4, amended: per scan, the bitset triangle detector reports no
vertex set twice; the earlier triangle detector reports no vertex set
twice whenever it returns at all; and the deduplicating `detect_4_cycles`
of `src/cycle_detection.py` reports every 4-element vertex set at most
once.  The bitset `detect_4_cycles` of `src/src/cycle_detection.py`,
however, deduplicates nothing and reports a square both of whose
diagonals are non-edges once per diagonal (see the counterexample). -/
theorem claim_C4_amended (adj : Dict) (hk : (Dict.keys adj).Nodup) :
    List.Pairwise (fun a b => triSet a ≠ triSet b) (SrcCD.detect_3_cycles adj) ∧
    (∀ ts, RootCD.detect_3_cycles adj = some ts →
      List.Pairwise (fun a b => triSet a ≠ triSet b) ts) ∧
    List.Pairwise (fun a b => quadSet a ≠ quadSet b) (RootCD.detect_4_cycles adj) :=
  ⟨srcCD_detect3_pairwise hk, fun _ h => rootCD_detect3_pairwise hk h,
    rootCD_detect4_pairwise adj⟩

/-- Claim C4 witness: the amended statement instantiated on the square. -/
theorem claim_C4_witness :
    List.Pairwise (fun a b => triSet a ≠ triSet b) (SrcCD.detect_3_cycles squareAdj) ∧
    (∀ ts, RootCD.detect_3_cycles squareAdj = some ts →
      List.Pairwise (fun a b => triSet a ≠ triSet b) ts) ∧
    List.Pairwise (fun a b => quadSet a ≠ quadSet b) (RootCD.detect_4_cycles squareAdj) :=
  claim_C4_amended squareAdj (by decide)

/-! ## Claim C8 (amended part): preprocess on well-formed symmetric graphs -/

theorem lookup_eq_of_mem {nb : List (ℕ × List ℕ)} {k : ℕ} {b : List ℕ}
    (hk : (Dict.keys nb).Nodup) (hm : (k, b) ∈ nb) : List.lookup k nb = some b := by
  induction nb with
  | nil => cases hm
  | cons p t ih =>
    obtain ⟨k', v⟩ := p
    have hk2 : k' ∉ Dict.keys t ∧ (Dict.keys t).Nodup := by
      simpa [Dict.keys] using hk
    rcases List.mem_cons.mp hm with he | hm2
    · cases he
      simp [List.lookup]
    · have hkm : k ∈ Dict.keys t := List.mem_map_of_mem Prod.fst hm2
      have hne : k ≠ k' := fun he => hk2.1 (he ▸ hkm)
      simp only [List.lookup, beq_false_of_ne hne]
      exact ih hk2.2 hm2

theorem mem_keys_lookup {nb : List (ℕ × List ℕ)} {v : ℕ} (h : v ∈ Dict.keys nb) :
    ∃ b, List.lookup v nb = some b := by
  induction nb with
  | nil => cases h
  | cons p t ih =>
    rcases List.mem_cons.mp h with he | hm
    · exact ⟨p.2, by simp [List.lookup, he]⟩
    · by_cases hp : v = p.1
      · exact ⟨p.2, by simp [List.lookup, hp]⟩
      · rcases ih hm with ⟨b, hb⟩
        exact ⟨b, by simp only [List.lookup, beq_false_of_ne hp]; exact hb⟩

theorem findRemovable_mem_keys {nb : List (ℕ × List ℕ)} {v : ℕ}
    (h : PP.findRemovable nb = some v) : v ∈ Dict.keys nb := by
  unfold PP.findRemovable at h
  rcases Option.map_eq_some'.mp h with ⟨p, hp, rfl⟩
  exact List.mem_map_of_mem Prod.fst (List.mem_of_find?_eq_some hp)

theorem removeV_succeeds {nb : List (ℕ × List ℕ)} (v : ℕ)
    (hwf : ∀ p ∈ nb, ∀ u ∈ p.2, u ∈ Dict.keys nb) :
    ∃ nb2, PP.removeV nb v = some nb2 := by
  unfold PP.removeV
  rw [if_pos]
  · exact ⟨_, rfl⟩
  · rcases hl : List.lookup v nb with _ | Nv
    · simp
    · rw [List.all_eq_true]
      intro u hu
      have : u ∈ Dict.keys nb := hwf (v, Nv) (lookup_mem hl) u (by simpa using hu)
      simpa [Dict.keys] using this

theorem findRemovable_none_prop {nb : List (ℕ × List ℕ)}
    (h : PP.findRemovable nb = none) :
    ∀ p ∈ nb, ∀ q ∈ nb, q.1 ≠ p.1 →
      ¬(¬(q.2.length < p.2.length) ∧ ∀ x ∈ p.2, x = q.1 ∨ x ∈ q.2) := by
  unfold PP.findRemovable at h
  rw [Option.map_eq_none'] at h
  rw [List.find?_eq_none] at h
  rintro p hp q hq hne ⟨hlen, hsub⟩
  refine h p hp ?_
  rw [List.any_eq_true]
  refine ⟨q, hq, ?_⟩
  rw [Bool.and_eq_true, Bool.and_eq_true]
  refine ⟨⟨by simpa using hne, by simpa using hlen⟩, ?_⟩
  rw [List.all_eq_true]
  intro x hx
  rcases hsub x hx with he | hm
  · simp [he]
  · simp [hm]

theorem entry_eq_of_keys_nodup {nb : List (ℕ × List ℕ)} {p q : ℕ × List ℕ}
    (hk : (Dict.keys nb).Nodup) (hp : p ∈ nb) (hq : q ∈ nb) (he : p.1 = q.1) : p = q := by
  have h1 : List.lookup p.1 nb = some p.2 := lookup_eq_of_mem hk hp
  have h2 : List.lookup q.1 nb = some q.2 := lookup_eq_of_mem hk hq
  rw [he, h2] at h1
  have := Option.some.inj h1
  exact Prod.ext he this.symm

theorem removeV_good_aux {nb : List (ℕ × List ℕ)} {v : ℕ} {Nv : List ℕ}
    (hk : (Dict.keys nb).Nodup) (hvn : ∀ p ∈ nb, p.2.Nodup)
    (hwf : ∀ p ∈ nb, ∀ u ∈ p.2, u ∈ Dict.keys nb)
    (hsym : ∀ p ∈ nb, ∀ u ∈ p.2, ∃ q ∈ nb, q.1 = u ∧ p.1 ∈ q.2)
    (hNv : ∀ p ∈ nb, (v ∈ p.2 ↔ p.1 ∈ Nv)) :
    GoodState ((nb.map fun q => if q.1 ∈ Nv then (q.1, q.2.erase v) else q).filter
      fun q => q.1 ≠ v) := by
  have hfst : ∀ q : ℕ × List ℕ, (if q.1 ∈ Nv then (q.1, q.2.erase v) else q).1 = q.1 := by
    intro q
    split <;> rfl
  have hmem2 : ∀ p2 : ℕ × List ℕ,
      (p2 ∈ (nb.map fun q => if q.1 ∈ Nv then (q.1, q.2.erase v) else q).filter
        fun q => q.1 ≠ v) ↔
      ∃ p ∈ nb, p.1 ≠ v ∧ p2 = (if p.1 ∈ Nv then (p.1, p.2.erase v) else p) := by
    intro p2
    rw [List.mem_filter, List.mem_map]
    constructor
    · rintro ⟨⟨p, hp, rfl⟩, hne⟩
      refine ⟨p, hp, ?_, rfl⟩
      intro he
      have h2 : (if p.1 ∈ Nv then (p.1, p.2.erase v) else p).1 ≠ v := by simpa using hne
      exact h2 ((hfst p).trans he)
    · rintro ⟨p, hp, hne, rfl⟩
      exact ⟨⟨p, hp, rfl⟩, by simpa [hfst p] using hne⟩
  have hsnd : ∀ p : ℕ × List ℕ, p ∈ nb → p.1 ≠ v → ∀ u,
      (u ∈ (if p.1 ∈ Nv then (p.1, p.2.erase v) else p).2 ↔ (u ≠ v ∧ u ∈ p.2)) := by
    intro p hp hpv u
    split
    · rename_i hin
      rw [(hvn p hp).mem_erase_iff]
    · rename_i hnin
      constructor
      · intro hu
        refine ⟨?_, hu⟩
        rintro rfl
        exact hnin ((hNv p hp).mp hu)
      · exact fun h => h.2
  have hkeys2 : ∀ u, (u ∈ Dict.keys ((nb.map fun q =>
      if q.1 ∈ Nv then (q.1, q.2.erase v) else q).filter fun q => q.1 ≠ v)) ↔
      (u ≠ v ∧ u ∈ Dict.keys nb) := by
    intro u
    unfold Dict.keys
    rw [List.mem_map]
    constructor
    · rintro ⟨p2, hp2, rfl⟩
      rcases (hmem2 p2).mp hp2 with ⟨p, hp, hne, rfl⟩
      rw [hfst p]
      exact ⟨hne, List.mem_map_of_mem Prod.fst hp⟩
    · rintro ⟨hne, hu⟩
      rcases List.mem_map.mp hu with ⟨p, hp, rfl⟩
      refine ⟨if p.1 ∈ Nv then (p.1, p.2.erase v) else p, ?_, hfst p⟩
      exact (hmem2 _).mpr ⟨p, hp, hne, rfl⟩
  refine ⟨?_, ?_, ?_, ?_⟩
  · have hsub : List.Sublist ((nb.map fun q =>
        if q.1 ∈ Nv then (q.1, q.2.erase v) else q).filter fun q => q.1 ≠ v)
        (nb.map fun q => if q.1 ∈ Nv then (q.1, q.2.erase v) else q) :=
      List.filter_sublist _
    have : Dict.keys (nb.map fun q => if q.1 ∈ Nv then (q.1, q.2.erase v) else q) =
        Dict.keys nb := by
      unfold Dict.keys
      rw [List.map_map]
      exact List.map_congr_left fun p _ => hfst p
    refine List.Nodup.sublist ?_ (this ▸ hk)
    exact hsub.map Prod.fst
  · intro p2 hp2
    rcases (hmem2 p2).mp hp2 with ⟨p, hp, _, rfl⟩
    split
    · exact (hvn p hp).erase v
    · exact hvn p hp
  · intro p2 hp2 u hu
    rcases (hmem2 p2).mp hp2 with ⟨p, hp, hne, rfl⟩
    rcases (hsnd p hp hne u).mp hu with ⟨huv, hup⟩
    exact (hkeys2 u).mpr ⟨huv, hwf p hp u hup⟩
  · intro p2 hp2 u hu
    rcases (hmem2 p2).mp hp2 with ⟨p, hp, hne, rfl⟩
    rcases (hsnd p hp hne u).mp hu with ⟨huv, hup⟩
    rcases hsym p hp u hup with ⟨q, hq, hq1, hq2⟩
    have hqv : q.1 ≠ v := hq1 ▸ huv
    refine ⟨if q.1 ∈ Nv then (q.1, q.2.erase v) else q, (hmem2 _).mpr ⟨q, hq, hqv, rfl⟩,
      (hfst q).trans hq1, ?_⟩
    rw [hfst p]
    exact (hsnd q hq hqv p.1).mpr ⟨hne, hq2⟩

theorem removeV_good {nb nb2 : List (ℕ × List ℕ)} {v : ℕ}
    (hg : GoodState nb) (h : PP.removeV nb v = some nb2) : GoodState nb2 := by
  obtain ⟨hk, hvn, hwf, hsym⟩ := hg
  unfold PP.removeV at h
  simp only at h
  split at h
  · have hnb2 := (Option.some.inj h).symm
    subst hnb2
    refine removeV_good_aux hk hvn hwf hsym ?_
    intro p hp
    constructor
    · intro hv
      rcases hsym p hp v hv with ⟨q, hq, hq1, hq2⟩
      have : List.lookup v nb = some q.2 := by
        rw [← hq1]
        exact lookup_eq_of_mem hk hq
      rw [this]
      exact hq2
    · intro hin
      rcases hl : List.lookup v nb with _ | l
      · rw [hl] at hin
        cases hin
      · rw [hl] at hin
        have hvl : (v, l) ∈ nb := lookup_mem hl
        rcases hsym (v, l) hvl p.1 hin with ⟨q, hq, hq1, hq2⟩
        have : q = p := entry_eq_of_keys_nodup hk hq hp hq1
        rw [← this]
        exact hq2
  · cases h

theorem removeV_length_lt {nb nb2 : List (ℕ × List ℕ)} {v : ℕ}
    (hm : v ∈ Dict.keys nb) (h : PP.removeV nb v = some nb2) :
    nb2.length < nb.length := by
  unfold PP.removeV at h
  simp only at h
  split at h
  · rcases List.mem_map.mp hm with ⟨q, hq, hfst⟩
    have hlt : ((nb.map fun q => if q.1 ∈ (List.lookup v nb).getD [] then
        (q.1, q.2.erase v) else q).filter fun q => decide (q.1 ≠ v)).length <
        (nb.map fun q => if q.1 ∈ (List.lookup v nb).getD [] then
        (q.1, q.2.erase v) else q).length := by
      apply List.length_filter_lt_length_iff_exists.mpr
      subst hfst
      refine ⟨if q.1 ∈ (List.lookup q.1 nb).getD [] then (q.1, q.2.erase q.1) else q,
        List.mem_map_of_mem _ hq, ?_⟩
      by_cases hc : q.1 ∈ (List.lookup q.1 nb).getD [] <;> simp [hc]
    have := Option.some.inj h
    subst this
    simpa using hlt
  · cases h

theorem ppLoop_good : ∀ (n : ℕ) (nb : List (ℕ × List ℕ)), nb.length ≤ n → GoodState nb →
    ∃ nb2, PP.ppLoop nb = some nb2 ∧ GoodState nb2 ∧ PP.findRemovable nb2 = none := by
  intro n
  induction n with
  | zero =>
    intro nb hlen hg
    have hnil : nb = [] := List.eq_nil_of_length_eq_zero (Nat.le_zero.mp hlen)
    subst hnil
    have hnone : PP.findRemovable [] = none := rfl
    exact ⟨[], ppLoop_of_none hnone, hg, hnone⟩
  | succ n ih =>
    intro nb hlen hg
    rcases h : PP.findRemovable nb with _ | v
    · exact ⟨nb, ppLoop_of_none h, hg, h⟩
    · rcases removeV_succeeds v hg.2.2.1 with ⟨nb2, h2⟩
      have hg2 := removeV_good hg h2
      have hlt := removeV_length_lt (findRemovable_mem_keys h) h2
      rcases ih nb2 (by omega) hg2 with ⟨nb3, h3, hg3, hn3⟩
      exact ⟨nb3, (ppLoop_of_step h h2).trans h3, hg3, hn3⟩

theorem exit_no_domination {nb : List (ℕ × List ℕ)} (hvn : ∀ p ∈ nb, p.2.Nodup)
    (h : PP.findRemovable nb = none) :
    ∀ p ∈ nb, ∀ q ∈ nb, q.1 ≠ p.1 → ¬(∀ x ∈ p.2, x = q.1 ∨ x ∈ q.2) := by
  intro p hp q hq hne hsub
  have H := findRemovable_none_prop h
  have hlen : q.2.length < p.2.length := by
    by_contra hlen
    exact H p hp q hq hne ⟨hlen, hsub⟩
  have hA : p.2.toFinset.card = p.2.length := List.toFinset_card_of_nodup (hvn p hp)
  have hB : q.2.toFinset.card = q.2.length := List.toFinset_card_of_nodup (hvn q hq)
  have hsubF : p.2.toFinset ⊆ insert q.1 q.2.toFinset := by
    intro x hx
    rcases hsub x (List.mem_toFinset.mp hx) with rfl | hx2
    · exact Finset.mem_insert_self _ _
    · exact Finset.mem_insert_of_mem (List.mem_toFinset.mpr hx2)
  have hcard : p.2.toFinset.card ≤ q.2.toFinset.card + 1 :=
    le_trans (Finset.card_le_card hsubF) (Finset.card_insert_le _ _)
  have heq : p.2.toFinset = insert q.1 q.2.toFinset := by
    apply Finset.eq_of_subset_of_card_le hsubF
    calc (insert q.1 q.2.toFinset).card ≤ q.2.toFinset.card + 1 := Finset.card_insert_le _ _
    _ ≤ p.2.toFinset.card := by omega
  have hBA : ∀ x ∈ q.2, x ∈ p.2 := by
    intro x hx
    have : x ∈ p.2.toFinset := by
      rw [heq]
      exact Finset.mem_insert_of_mem (List.mem_toFinset.mpr hx)
    exact List.mem_toFinset.mp this
  exact H q hq p hp (Ne.symm hne) ⟨by omega, fun x hx => Or.inr (hBA x hx)⟩

/-- Claim C8, amended: `preprocess` does terminate on every input (each
round of its `while` loop deletes one vertex), but it returns a reduced
adjacency only when the input adjacency is well-formed — every listed
neighbor is a vertex — and symmetric; dangling labels can crash the
removal step (see the counterexample).  Under those hypotheses the result
is a fixpoint of the domination rule: no remaining vertex `v` has another
remaining vertex `w` with `N(v) ⊆ N(w) ∪ {w}` in the reduced graph.  The
fixpoint argument: were `v` dominated by `w` at exit, the exit scan forces
`|N(w)| < |N(v)|`, hence `N(v) = N(w) ∪ {w}` exactly, hence `N(w) ⊆ N(v)`,
so the scan would have removed `w` — a contradiction. -/
theorem claim_C8_amended (adj : Dict)
    (hk : (Dict.keys adj).Nodup)
    (hwf : ∀ p ∈ adj, ∀ u ∈ p.2, u ∈ Dict.keys adj)
    (hsym : ∀ p ∈ adj, ∀ u ∈ p.2, ∃ q ∈ adj, q.1 = u ∧ p.1 ∈ q.2) :
    ∃ ks radj, PP.preprocess adj = some (ks, radj) ∧
      ∀ v ∈ ks, ∀ w ∈ ks, v ≠ w → ¬ Dominates radj w v := by
  have hkeysm : Dict.keys (adj.map fun p => (p.1, pyset p.2)) = Dict.keys adj := by
    unfold Dict.keys
    rw [List.map_map]
    rfl
  have hg : GoodState (adj.map fun p => (p.1, pyset p.2)) := by
    refine ⟨by rw [hkeysm]; exact hk, ?_, ?_, ?_⟩
    · intro p hp
      rcases List.mem_map.mp hp with ⟨q, _, rfl⟩
      exact pyset_nodup q.2
    · intro p hp u hu
      rcases List.mem_map.mp hp with ⟨q, hq, rfl⟩
      rw [hkeysm]
      exact hwf q hq u (mem_pyset.mp hu)
    · intro p hp u hu
      rcases List.mem_map.mp hp with ⟨q, hq, rfl⟩
      rcases hsym q hq u (mem_pyset.mp hu) with ⟨r, hr, hr1, hr2⟩
      exact ⟨(r.1, pyset r.2), List.mem_map_of_mem _ hr, hr1, mem_pyset.mpr hr2⟩
  rcases ppLoop_good _ _ (le_refl _) hg with ⟨nb2, hloop, hg2, hnone⟩
  refine ⟨nb2.map Prod.fst, nb2.map fun p => (p.1, pysorted p.2), ?_, ?_⟩
  · unfold PP.preprocess
    simp only [hloop]
  · intro v hv w hw hne hdom
    rcases mem_keys_lookup hv with ⟨Nv, hNv⟩
    rcases mem_keys_lookup hw with ⟨Nw, hNw⟩
    have hpv : (v, Nv) ∈ nb2 := lookup_mem hNv
    have hpw : (w, Nw) ∈ nb2 := lookup_mem hNw
    have hgv : Dict.getD (nb2.map fun p => (p.1, pysorted p.2)) v = pysorted Nv := by
      unfold Dict.getD Dict.get?
      rw [lookup_map_snd, hNv]
      rfl
    have hgw : Dict.getD (nb2.map fun p => (p.1, pysorted p.2)) w = pysorted Nw := by
      unfold Dict.getD Dict.get?
      rw [lookup_map_snd, hNw]
      rfl
    have hsub : ∀ x ∈ Nv, x = w ∨ x ∈ Nw := by
      intro x hx
      have hd := hdom x (by rw [hgv]; exact mem_pysorted.mpr hx)
      rcases hd with he | hmw
      · exact Or.inl he
      · rw [hgw] at hmw
        exact Or.inr (mem_pysorted.mp hmw)
    exact exit_no_domination hg2.2.1 hnone (v, Nv) hpv (w, Nw) hpw hne.symm hsub

/-- Claim C8 witness: the amended statement instantiated on the pentagon,
which is already a domination fixpoint. -/
theorem claim_C8_witness :
    ∃ ks radj, PP.preprocess pentagon = some (ks, radj) ∧
      ∀ v ∈ ks, ∀ w ∈ ks, v ≠ w → ¬ Dominates radj w v :=
  claim_C8_amended pentagon (by decide) (by decide) (by decide)

/-! ## Claim C5 (amended part): structure of the boundary matrix -/

theorem delFace_eq_eraseIdx {σ : Face} (hs : σ.Sorted (· < ·)) (i : ℕ) :
    delFace σ i = σ.eraseIdx i := by
  unfold delFace
  rw [← List.eraseIdx_eq_take_drop_succ]
  exact pysorted_eq_self (((hs.le_of_lt).sublist (List.eraseIdx_sublist σ i)))

theorem eraseIdx_injOn {σ : Face} (hnd : σ.Nodup) {p q : ℕ}
    (hp : p < σ.length) (hq : q < σ.length) (h : σ.eraseIdx p = σ.eraseIdx q) : p = q := by
  by_contra hne
  have h1 : σ[p] ∈ σ.eraseIdx q :=
    List.mem_eraseIdx_iff_getElem.mpr ⟨p, hp, hne, rfl⟩
  rw [← h] at h1
  rcases List.mem_eraseIdx_iff_getElem.mp h1 with ⟨i, hi, hip, hieq⟩
  exact hip ((List.Nodup.getElem_inj_iff hnd).mp hieq)

theorem A_n_eq_filter {faces : List Face} (hsorted : ∀ σ ∈ faces, σ.Sorted (· < ·)) (n : ℤ) :
    A_n n faces = faces.filter fun σ => (σ.length : ℤ) == n + 1 := by
  unfold A_n
  rw [List.map_congr_left, List.map_id]
  intro σ hσ
  exact pysorted_eq_self ((hsorted σ (List.mem_of_mem_filter hσ)).le_of_lt)

theorem foldl_mat_pres {β : Type} (g : Mat → β → Mat) (P : Mat → Prop)
    (hg : ∀ m x, P m → P (g m x)) :
    ∀ (l : List β) (m : Mat), P m → P (l.foldl g m)
  | [], _, h => h
  | a :: t, m, h => by
    rw [List.foldl_cons]
    exact foldl_mat_pres g P hg t (g m a) (hg m a h)

theorem bStep_dims (S0 : List Face) (col : ℕ) (σ : Face) (m : Mat) (i : ℕ) :
    (bStep S0 col σ m i).rows = m.rows ∧ (bStep S0 col σ m i).cols = m.cols := by
  unfold bStep Mat.set
  split <;> exact ⟨rfl, rfl⟩

theorem boundary_rows_cols (n : ℤ) (faces : List Face) :
    (boundary n faces).rows = (A_n (n - 1) faces).length ∧
      (boundary n faces).cols = (A_n n faces).length := by
  unfold boundary
  refine foldl_mat_pres _ (fun m => m.rows = (A_n (n - 1) faces).length ∧
    m.cols = (A_n n faces).length) ?_ _ _ ⟨rfl, rfl⟩
  intro m p h
  refine foldl_mat_pres _ (fun m => m.rows = (A_n (n - 1) faces).length ∧
    m.cols = (A_n n faces).length) ?_ _ _ h
  intro m i h
  rcases bStep_dims (A_n (n - 1) faces) p.1 p.2 m i with ⟨h1, h2⟩
  exact ⟨h1.trans h.1, h2.trans h.2⟩

theorem foldl_bStep_entry_ne {S0 : List Face} {col : ℕ} {σ : Face} {r c : ℕ} (hc : c ≠ col) :
    ∀ (is : List ℕ) (m : Mat), (is.foldl (bStep S0 col σ) m).entry r c = m.entry r c := by
  intro is
  induction is with
  | nil => intro m; rfl
  | cons a t ih =>
    intro m
    rw [List.foldl_cons, ih]
    unfold bStep Mat.set
    split
    · simp only
      rw [if_neg]
      rintro ⟨_, rfl⟩
      exact hc rfl
    · rfl

theorem foldl_bStep_entry_zero {S0 : List Face} {col : ℕ} {σ : Face} {r : ℕ} :
    ∀ (is : List ℕ) (m : Mat),
      (∀ i ∈ is, ¬(delFace σ i ∈ S0 ∧ List.indexOf (delFace σ i) S0 = r)) →
      (is.foldl (bStep S0 col σ) m).entry r col = m.entry r col := by
  intro is
  induction is with
  | nil => intro m _; rfl
  | cons a t ih =>
    intro m hno
    rw [List.foldl_cons, ih _ fun i hi => hno i (List.mem_cons_of_mem a hi)]
    unfold bStep Mat.set
    split
    · rename_i hmem
      simp only
      rw [if_neg]
      rintro ⟨rfl, _⟩
      exact hno a (List.mem_cons_self a t) ⟨hmem, rfl⟩
    · rfl

theorem foldl_bStep_entry_hit {S0 : List Face} {col : ℕ} {σ : Face} {r i : ℕ} :
    ∀ (is : List ℕ) (m : Mat), is.Nodup → i ∈ is →
      delFace σ i ∈ S0 → List.indexOf (delFace σ i) S0 = r →
      (∀ j ∈ is, delFace σ j ∈ S0 → List.indexOf (delFace σ j) S0 = r → j = i) →
      (is.foldl (bStep S0 col σ) m).entry r col = (-1) ^ i := by
  intro is
  induction is with
  | nil => intro m _ hi; cases hi
  | cons a t ih =>
    intro m hnd hi hmem hidx huniq
    rw [List.foldl_cons]
    rcases List.mem_cons.mp hi with rfl | hit
    · rw [foldl_bStep_entry_zero t _ ?_]
      · unfold bStep Mat.set
        rw [if_pos hmem]
        simp only
        rw [if_pos ⟨hidx.symm, trivial⟩]
      · intro j hj ⟨hjm, hjr⟩
        have hji : j = i := huniq j (List.mem_cons_of_mem i hj) hjm hjr
        exact (List.nodup_cons.mp hnd).1 (hji ▸ hj)
    · exact ih _ (List.Nodup.of_cons hnd) hit hmem hidx
        fun j hj => huniq j (List.mem_cons_of_mem a hj)

theorem outer_entry_notin {S0 : List Face} :
    ∀ (ps : List (ℕ × Face)) (m : Mat) (r c : ℕ), c ∉ ps.map Prod.fst →
      (ps.foldl (fun m p => (List.range p.2.length).foldl (bStep S0 p.1 p.2) m) m).entry r c
        = m.entry r c := by
  intro ps
  induction ps with
  | nil => intro m r c _; rfl
  | cons p t ih =>
    intro m r c hc
    have hc' : c ∉ p.1 :: t.map Prod.fst := by simpa using hc
    rw [List.foldl_cons, ih _ _ _ fun h => hc' (List.mem_cons_of_mem _ h)]
    refine foldl_bStep_entry_ne ?_ _ m
    intro he
    exact hc' (by rw [he]; exact List.mem_cons_self _ _)

theorem outer_entry_main {S0 : List Face} :
    ∀ (ps : List (ℕ × Face)) (m : Mat) (r col : ℕ) (σ : Face),
      (ps.map Prod.fst).Nodup → (col, σ) ∈ ps →
      ((∀ i ∈ List.range σ.length,
          ¬(delFace σ i ∈ S0 ∧ List.indexOf (delFace σ i) S0 = r)) →
        (ps.foldl (fun m p => (List.range p.2.length).foldl (bStep S0 p.1 p.2) m) m).entry r col
          = m.entry r col) ∧
      (∀ i, i ∈ List.range σ.length → delFace σ i ∈ S0 →
        List.indexOf (delFace σ i) S0 = r →
        (∀ j ∈ List.range σ.length, delFace σ j ∈ S0 →
          List.indexOf (delFace σ j) S0 = r → j = i) →
        (ps.foldl (fun m p => (List.range p.2.length).foldl (bStep S0 p.1 p.2) m) m).entry r col
          = (-1) ^ i) := by
  intro ps
  induction ps with
  | nil =>
    intro m r col σ _ hmem
    cases hmem
  | cons p t ih =>
    intro m r col σ hnd hmem
    rw [List.map_cons] at hnd
    have hnd2 := List.nodup_cons.mp hnd
    have hndt : (t.map Prod.fst).Nodup := hnd2.2
    rcases List.mem_cons.mp hmem with he | hmt
    · have hp1 : p.1 = col := by rw [← he]
      have hnotin : col ∉ t.map Prod.fst := by
        have := hnd2.1
        rwa [hp1] at this
      constructor
      · intro hz
        rw [List.foldl_cons, outer_entry_notin t _ _ _ hnotin, ← he]
        exact foldl_bStep_entry_zero _ m hz
      · intro i hi h1 h2 hu
        rw [List.foldl_cons, outer_entry_notin t _ _ _ hnotin, ← he]
        exact foldl_bStep_entry_hit _ m (List.nodup_range _) hi h1 h2 hu
    · have hne : col ≠ p.1 := by
        intro he2
        have hcolmem : col ∈ t.map Prod.fst := List.mem_map_of_mem Prod.fst hmt
        exact hnd2.1 (he2 ▸ hcolmem)
      constructor
      · intro hz
        rw [List.foldl_cons,
          (ih ((List.range p.2.length).foldl (bStep S0 p.1 p.2) m) r col σ hndt hmt).1 hz]
        exact foldl_bStep_entry_ne hne _ m
      · intro i hi h1 h2 hu
        rw [List.foldl_cons]
        exact (ih _ r col σ hndt hmt).2 i hi h1 h2 hu

theorem elimRank_nil {α : Type} [CommRing α] [DecidableEq α] (iszero : α → Bool) :
    ∀ c : ℕ, elimRank iszero c ([] : List (List α)) = 0
  | 0 => rfl
  | c + 1 => elimRank_nil iszero c

theorem subsetClosed_iff {faces : List Face} :
    SubsetClosed faces ↔
      ∀ σ ∈ (faces.map pysorted).dedup, ∀ k ∈ List.range' 1 (σ.length - 1),
        ∀ τ ∈ combinations σ k, pysorted τ ∈ (faces.map pysorted).dedup := by
  unfold SubsetClosed
  constructor
  · intro H σ hσ k hk τ hτ
    have hk' := List.mem_range'_1.mp hk
    exact H σ hσ k hk'.1 (by omega) τ hτ
  · intro H σ hσ k hk1 hk2 τ hτ
    exact H σ hσ k (List.mem_range'_1.mpr ⟨hk1, by omega⟩) τ hτ

theorem face_indexOf_lt {l : List Face} {x : Face} (h : x ∈ l) :
    List.indexOf x l < l.length := by
  induction l with
  | nil => cases h
  | cons a t ih =>
    rw [List.indexOf_cons]
    by_cases he : a = x
    · simp [he]
    · rcases List.mem_cons.mp h with rfl | hm
      · exact absurd rfl he
      · simpa [beq_false_of_ne he] using ih hm

theorem face_getElem_indexOf {l : List Face} {x : Face} (h : x ∈ l) :
    ∀ hlt : List.indexOf x l < l.length, l[List.indexOf x l] = x := by
  induction l with
  | nil => cases h
  | cons a t ih =>
    intro hlt
    by_cases he : a = x
    · simp [List.indexOf_cons, he]
    · rcases List.mem_cons.mp h with rfl | hm
      · exact absurd rfl he
      · have hb : (a == x) = false := beq_false_of_ne he
        have h2 : List.indexOf x (a :: t) = List.indexOf x t + 1 := by
          rw [List.indexOf_cons, hb]
          rfl
        rw [h2, List.length_cons] at hlt
        have := ih hm (by omega)
        simp only [h2]
        rw [List.getElem_cons_succ]
        exact this

theorem face_indexOf_getElem {l : List Face} (hnd : l.Nodup) :
    ∀ (i : ℕ) (h : i < l.length), List.indexOf l[i] l = i := by
  induction l with
  | nil => intro i h; cases (by omega : ¬ i < 0) h
  | cons a t ih =>
    intro i h
    cases i with
    | zero => simp [List.indexOf_cons]
    | succ k =>
      have hk : k < t.length := by simpa using h
      have hmem : t[k] ∈ t := List.getElem_mem hk
      have hne : a ≠ t[k] := by
        intro he
        exact (List.nodup_cons.mp hnd).1 (he ▸ hmem)
      rw [List.getElem_cons_succ, List.indexOf_cons, beq_false_of_ne hne]
      simp only [cond_false]
      rw [ih (List.Nodup.of_cons hnd) k hk]

theorem indexOf_getD {S0 : List Face} {x : Face} (hx : x ∈ S0) {r : ℕ}
    (he : List.indexOf x S0 = r) : r < S0.length ∧ S0.getD r [] = x := by
  subst he
  have hlt := face_indexOf_lt hx
  refine ⟨hlt, ?_⟩
  rw [List.getD_eq_getElem _ _ hlt]
  exact face_getElem_indexOf hx hlt

/-- Claim C5, amended: the boundary matrix is as the claim describes —
entry `(-1)^p` at the row of the `p`-th deleted-vertex face of each column
simplex and `0` elsewhere, zero rows with rank `0` and nullity the number
of vertices for `n = 0`, zero columns above the top dimension — except
that the two bases are not in sorted-tuple order: `A_n` keeps the faces in
the order the face collection is iterated, and rows/columns follow that
order. -/
theorem claim_C5_amended (n : ℤ) (faces : List Face)
    (hsorted : ∀ σ ∈ faces, σ.Sorted (· < ·))
    (hne : ∀ σ ∈ faces, σ ≠ [])
    (hnodup : faces.Nodup)
    (hdc : SubsetClosed faces) :
    ((boundary n faces).rows = (A_n (n - 1) faces).length ∧
      (boundary n faces).cols = (A_n n faces).length) ∧
    A_n n faces = (faces.filter fun σ => (σ.length : ℤ) == n + 1) ∧
    (∀ r c, r < (A_n (n - 1) faces).length → c < (A_n n faces).length →
      (∀ p, p < ((A_n n faces).getD c []).length →
        (A_n (n - 1) faces).getD r [] = ((A_n n faces).getD c []).eraseIdx p →
        (boundary n faces).entry r c = (-1) ^ p) ∧
      ((∀ p, p < ((A_n n faces).getD c []).length →
        (A_n (n - 1) faces).getD r [] ≠ ((A_n n faces).getD c []).eraseIdx p) →
        (boundary n faces).entry r c = 0)) ∧
    ((boundary 0 faces).rows = 0 ∧
      elimRank qzero (boundary 0 faces).cols (boundary 0 faces).toLists = 0 ∧
      (boundary 0 faces).cols -
        elimRank qzero (boundary 0 faces).cols (boundary 0 faces).toLists =
        (faces.filter fun σ => σ.length == 1).length) ∧
    ((∀ σ ∈ faces, (σ.length : ℤ) < n + 1) → (boundary n faces).cols = 0) := by
  have hAfilter : ∀ k : ℤ, A_n k faces = faces.filter fun σ => (σ.length : ℤ) == k + 1 :=
    A_n_eq_filter hsorted
  have hS0nd : (A_n (n - 1) faces).Nodup := by
    rw [hAfilter]
    exact hnodup.filter _
  have hS1mem : ∀ σ ∈ A_n n faces, σ ∈ faces := by
    intro σ hσ
    rw [hAfilter] at hσ
    exact List.mem_of_mem_filter hσ
  have hAneg : A_n (0 - 1) faces = [] := by
    rw [hAfilter]
    rw [List.filter_eq_nil_iff]
    intro σ hσ
    have h1 : σ.length ≠ 0 := fun h => hne σ hσ (List.eq_nil_of_length_eq_zero h)
    simp only [beq_iff_eq]
    omega
  have hrows0 : (boundary 0 faces).rows = 0 := by
    rw [(boundary_rows_cols 0 faces).1, hAneg]
    rfl
  have htoL : (boundary 0 faces).toLists = [] := by
    unfold Mat.toLists
    rw [hrows0]
    rfl
  refine ⟨boundary_rows_cols n faces, hAfilter n, ?_, ?_, ?_⟩
  · intro r c hr hc
    have hσmem : (c, (A_n n faces).getD c []) ∈ (A_n n faces).enum := by
      rw [List.getD_eq_getElem _ _ hc]
      exact List.mk_mem_enum_iff_getElem?.mpr (List.getElem?_eq_getElem hc)
    have hnd_fst : ((A_n n faces).enum.map Prod.fst).Nodup := by
      rw [List.enum_map_fst]
      exact List.nodup_range _
    have hσfaces : (A_n n faces).getD c [] ∈ faces := by
      rw [List.getD_eq_getElem _ _ hc]
      exact hS1mem _ (List.getElem_mem hc)
    have hσsort : ((A_n n faces).getD c []).Sorted (· < ·) := hsorted _ hσfaces
    have hσnd : ((A_n n faces).getD c []).Nodup := hσsort.nodup
    have hrowmem : (A_n (n - 1) faces).getD r [] ∈ A_n (n - 1) faces := by
      rw [List.getD_eq_getElem _ _ hr]
      exact List.getElem_mem hr
    have hrowidx : List.indexOf ((A_n (n - 1) faces).getD r []) (A_n (n - 1) faces) = r := by
      rw [List.getD_eq_getElem _ _ hr]
      exact face_indexOf_getElem hS0nd r hr
    constructor
    · intro p hp heq
      refine (outer_entry_main _ _ r c _ hnd_fst hσmem).2 p (List.mem_range.mpr hp) ?_ ?_ ?_
      · rw [delFace_eq_eraseIdx hσsort, ← heq]
        exact hrowmem
      · rw [delFace_eq_eraseIdx hσsort, ← heq]
        exact hrowidx
      · intro j hj hjm hjr
        rcases indexOf_getD hjm hjr with ⟨_, hjeq⟩
        rw [delFace_eq_eraseIdx hσsort] at hjeq
        refine eraseIdx_injOn hσnd (List.mem_range.mp hj) hp ?_
        exact hjeq.symm.trans heq
    · intro hall
      have hz := (@outer_entry_main (A_n (n - 1) faces) (A_n n faces).enum
        (Mat.zeros (A_n (n - 1) faces).length (A_n n faces).length) r c
        ((A_n n faces).getD c []) hnd_fst hσmem).1 ?_
      · unfold boundary
        rw [hz]
        rfl
      · intro i hi ⟨him, hir⟩
        rcases indexOf_getD him hir with ⟨_, hieq⟩
        rw [delFace_eq_eraseIdx hσsort] at hieq
        exact hall i (List.mem_range.mp hi) hieq
  · refine ⟨hrows0, by rw [htoL]; exact elimRank_nil qzero _, ?_⟩
    rw [htoL, elimRank_nil qzero]
    rw [(boundary_rows_cols 0 faces).2, hAfilter 0]
    rw [Nat.sub_zero]
    congr 1
    refine List.filter_congr ?_
    intro σ _
    rw [Bool.eq_iff_iff]
    simp only [beq_iff_eq]
    omega
  · intro htop
    rw [(boundary_rows_cols n faces).2, hAfilter n]
    rw [List.filter_eq_nil_iff.mpr]
    · rfl
    · intro σ hσ
      have := htop σ hσ
      simp only [beq_iff_eq]
      omega

/-- Claim C5 witness: the amended statement instantiated on the full
triangle complex with `n = 1`. -/
theorem claim_C5_witness :
    ((boundary 1 triFaces).rows = (A_n 0 triFaces).length ∧
      (boundary 1 triFaces).cols = (A_n 1 triFaces).length) ∧
    A_n 1 triFaces = (triFaces.filter fun σ => (σ.length : ℤ) == 1 + 1) ∧
    (∀ r c, r < (A_n 0 triFaces).length → c < (A_n 1 triFaces).length →
      (∀ p, p < ((A_n 1 triFaces).getD c []).length →
        (A_n 0 triFaces).getD r [] = ((A_n 1 triFaces).getD c []).eraseIdx p →
        (boundary 1 triFaces).entry r c = (-1) ^ p) ∧
      ((∀ p, p < ((A_n 1 triFaces).getD c []).length →
        (A_n 0 triFaces).getD r [] ≠ ((A_n 1 triFaces).getD c []).eraseIdx p) →
        (boundary 1 triFaces).entry r c = 0)) ∧
    ((boundary 0 triFaces).rows = 0 ∧
      elimRank qzero (boundary 0 triFaces).cols (boundary 0 triFaces).toLists = 0 ∧
      (boundary 0 triFaces).cols -
        elimRank qzero (boundary 0 triFaces).cols (boundary 0 triFaces).toLists =
        (triFaces.filter fun σ => σ.length == 1).length) ∧
    ((∀ σ ∈ triFaces, (σ.length : ℤ) < 1 + 1) → (boundary 1 triFaces).cols = 0) := by
  have h1 : (1 : ℤ) - 1 = 0 := by norm_num
  have := claim_C5_amended 1 triFaces (by decide) (by decide) (by decide)
    (subsetClosed_iff.mpr (by decide))
  rwa [h1] at this

/-! ## Claim C10: build_simplicial_complex yields a valid complex -/

theorem faceShape_mono {X : List ℕ} {A A2 : List Face} {f : Face}
    (hAA : ∀ g ∈ A, g ∈ A2) (h : FaceShape X A f) : FaceShape X A2 f := by
  rcases h with h | h | ⟨a, b, c, h1, h2, h3, h4, h5, h6, e1, e2, e3⟩
  · exact Or.inl h
  · exact Or.inr (Or.inl h)
  · exact Or.inr (Or.inr ⟨a, b, c, h1, h2, h3, h4, h5, h6, hAA _ e1, hAA _ e2, hAA _ e3⟩)

theorem bitIndices_sorted (m : ℕ) : List.Sorted (· < ·) (bitIndices m) :=
  (List.pairwise_lt_range m).filter _

theorem mem_pairs_sorted {l : List ℕ} (hs : List.Sorted (· < ·) l) {p : ℕ × ℕ}
    (h : p ∈ pairs l) : p.1 ∈ l ∧ p.2 ∈ l ∧ p.1 < p.2 := by
  induction l with
  | nil => cases h
  | cons a rest ih =>
    rw [pairs] at h
    rcases List.mem_append.mp h with h1 | h2
    · rcases List.mem_map.mp h1 with ⟨b, hb, rfl⟩
      exact ⟨List.mem_cons_self a rest, List.mem_cons_of_mem a hb,
        (List.sorted_cons.mp hs).1 b hb⟩
    · rcases ih (List.sorted_cons.mp hs).2 h2 with ⟨h3, h4, h5⟩
      exact ⟨List.mem_cons_of_mem a h3, List.mem_cons_of_mem a h4, h5⟩

theorem nb_getD (adj : Dict) {i : ℕ} (hi : i < (pysorted (Dict.keys adj)).length) :
    (SrcCD.neighborsBits adj).getD i 0 =
      bitsOf (pysorted (Dict.keys adj))
        (Dict.getD adj ((pysorted (Dict.keys adj)).getD i 0)) := by
  have hlen : i < (SrcCD.neighborsBits adj).length := by
    unfold SrcCD.neighborsBits
    simpa using hi
  rw [List.getD_eq_getElem _ 0 hlen, List.getD_eq_getElem _ 0 hi]
  unfold SrcCD.neighborsBits
  rw [List.getElem_map]

theorem testBit_nb {adj : Dict} {i p : ℕ}
    (hi : i < (pysorted (Dict.keys adj)).length)
    (h : ((SrcCD.neighborsBits adj).getD i 0).testBit p = true) :
    p < (pysorted (Dict.keys adj)).length ∧
      (pysorted (Dict.keys adj)).getD p 0 ∈
        Dict.getD adj ((pysorted (Dict.keys adj)).getD i 0) := by
  rw [nb_getD adj hi] at h
  rcases testBit_bitsOf.mp h with ⟨u, hu, huv, hidx⟩
  subst hidx
  have hp : List.indexOf u (pysorted (Dict.keys adj)) < (pysorted (Dict.keys adj)).length :=
    List.indexOf_lt_length.mpr huv
  refine ⟨hp, ?_⟩
  rw [List.getD_eq_getElem _ 0 hp, List.getElem_indexOf hp]
  exact hu

theorem srcCD_detect3_mem {adj : Dict} {t : Tri} (ht : t ∈ SrcCD.detect_3_cycles adj) :
    ∃ i j k : ℕ, i < j ∧ j < k ∧ i < (pysorted (Dict.keys adj)).length ∧
      j < (pysorted (Dict.keys adj)).length ∧ k < (pysorted (Dict.keys adj)).length ∧
      t = ((pysorted (Dict.keys adj)).getD i 0, (pysorted (Dict.keys adj)).getD j 0,
        (pysorted (Dict.keys adj)).getD k 0) ∧
      (pysorted (Dict.keys adj)).getD j 0 ∈
        Dict.getD adj ((pysorted (Dict.keys adj)).getD i 0) ∧
      (pysorted (Dict.keys adj)).getD k 0 ∈
        Dict.getD adj ((pysorted (Dict.keys adj)).getD i 0) ∧
      (pysorted (Dict.keys adj)).getD k 0 ∈
        Dict.getD adj ((pysorted (Dict.keys adj)).getD j 0) := by
  have ht' : t ∈ (List.range (pysorted (Dict.keys adj)).length).flatMap fun i =>
      (bitIndices (clearLow (i + 1) ((SrcCD.neighborsBits adj).getD i 0))).flatMap fun j =>
        (bitIndices (clearLow (j + 1)
            (((SrcCD.neighborsBits adj).getD i 0) &&& ((SrcCD.neighborsBits adj).getD j 0)))).map
          fun k => ((pysorted (Dict.keys adj)).getD i 0, (pysorted (Dict.keys adj)).getD j 0,
            (pysorted (Dict.keys adj)).getD k 0) := ht
  rcases List.mem_flatMap.mp ht' with ⟨i, hi, h2⟩
  rcases List.mem_flatMap.mp h2 with ⟨j, hj, h3⟩
  rcases List.mem_map.mp h3 with ⟨k, hk, rfl⟩
  have hin : i < (pysorted (Dict.keys adj)).length := List.mem_range.mp hi
  have hjb := mem_bitIndices.mp hj
  rw [testBit_clearLow] at hjb
  rcases Bool.and_eq_true_iff.mp hjb with ⟨hj1, hj2⟩
  have hij : i < j := by have := of_decide_eq_true hj1; omega
  have hkb := mem_bitIndices.mp hk
  rw [testBit_clearLow] at hkb
  rcases Bool.and_eq_true_iff.mp hkb with ⟨hk1, hk2⟩
  have hjk : j < k := by have := of_decide_eq_true hk1; omega
  rw [Nat.testBit_and] at hk2
  rcases Bool.and_eq_true_iff.mp hk2 with ⟨hk2a, hk2b⟩
  rcases testBit_nb hin hj2 with ⟨hjn, hadj1⟩
  rcases testBit_nb hin hk2a with ⟨hkn, hadj2⟩
  rcases testBit_nb hjn hk2b with ⟨_, hadj3⟩
  exact ⟨i, j, k, hij, hjk, hin, hjn, hkn, rfl, hadj1, hadj2, hadj3⟩

theorem srcCD_detect4_mem {adj : Dict} {q : Quad} (hq : q ∈ SrcCD.detect_4_cycles adj) :
    ∃ i u j w : ℕ, i < j ∧ u < w ∧ i < (pysorted (Dict.keys adj)).length ∧
      u < (pysorted (Dict.keys adj)).length ∧ j < (pysorted (Dict.keys adj)).length ∧
      w < (pysorted (Dict.keys adj)).length ∧
      q = ((pysorted (Dict.keys adj)).getD i 0, (pysorted (Dict.keys adj)).getD u 0,
        (pysorted (Dict.keys adj)).getD j 0, (pysorted (Dict.keys adj)).getD w 0) ∧
      (pysorted (Dict.keys adj)).getD u 0 ∈
        Dict.getD adj ((pysorted (Dict.keys adj)).getD i 0) ∧
      (pysorted (Dict.keys adj)).getD u 0 ∈
        Dict.getD adj ((pysorted (Dict.keys adj)).getD j 0) ∧
      (pysorted (Dict.keys adj)).getD w 0 ∈
        Dict.getD adj ((pysorted (Dict.keys adj)).getD i 0) ∧
      (pysorted (Dict.keys adj)).getD w 0 ∈
        Dict.getD adj ((pysorted (Dict.keys adj)).getD j 0) := by
  have hq' : q ∈ (List.range (pysorted (Dict.keys adj)).length).flatMap fun i =>
      (List.range' (i + 1) ((pysorted (Dict.keys adj)).length - (i + 1))).flatMap fun j =>
        if (((SrcCD.neighborsBits adj).getD i 0) >>> j) &&& 1 = 1 then []
        else
          (pairs (bitIndices (((SrcCD.neighborsBits adj).getD i 0) &&&
              ((SrcCD.neighborsBits adj).getD j 0)))).map fun uw =>
            ((pysorted (Dict.keys adj)).getD i 0, (pysorted (Dict.keys adj)).getD uw.1 0,
              (pysorted (Dict.keys adj)).getD j 0, (pysorted (Dict.keys adj)).getD uw.2 0) := hq
  rcases List.mem_flatMap.mp hq' with ⟨i, hi, h2⟩
  rcases List.mem_flatMap.mp h2 with ⟨j, hj, h3⟩
  have hin : i < (pysorted (Dict.keys adj)).length := List.mem_range.mp hi
  rcases List.mem_range'_1.mp hj with ⟨hj1, hj2⟩
  have hij : i < j := by omega
  have hjn : j < (pysorted (Dict.keys adj)).length := by omega
  by_cases hcond : (((SrcCD.neighborsBits adj).getD i 0) >>> j) &&& 1 = 1
  · rw [if_pos hcond] at h3
    cases h3
  · rw [if_neg hcond] at h3
    rcases List.mem_map.mp h3 with ⟨uw, huw, rfl⟩
    rcases mem_pairs_sorted (bitIndices_sorted _) huw with ⟨hu, hw, huwlt⟩
    have hub := mem_bitIndices.mp hu
    rw [Nat.testBit_and] at hub
    rcases Bool.and_eq_true_iff.mp hub with ⟨hui, huj⟩
    have hwb := mem_bitIndices.mp hw
    rw [Nat.testBit_and] at hwb
    rcases Bool.and_eq_true_iff.mp hwb with ⟨hwi, hwj⟩
    rcases testBit_nb hin hui with ⟨hun, hadj1⟩
    rcases testBit_nb hjn huj with ⟨_, hadj2⟩
    rcases testBit_nb hin hwi with ⟨hwn, hadj3⟩
    rcases testBit_nb hjn hwj with ⟨_, hadj4⟩
    exact ⟨i, uw.1, j, uw.2, hij, huwlt, hin, hun, hjn, hwn, rfl,
      hadj1, hadj2, hadj3, hadj4⟩

theorem nodup_foldl_setAdd {β : Type} (g : β → Face) :
    ∀ (l : List β) (A : List Face), A.Nodup →
      (l.foldl (fun A x => setAdd A (g x)) A).Nodup
  | [], _, h => h
  | b :: t, A, h => by
    rw [List.foldl_cons]
    exact nodup_foldl_setAdd g t _ (setAdd_nodup h)

theorem foldl_pres_mem {α β : Type} (g : α → β → α) (P : α → Prop) :
    ∀ (l : List β), (∀ st x, x ∈ l → P st → P (g st x)) → ∀ st, P st → P (l.foldl g st)
  | [], _, _, h => h
  | a :: t, hg, st, h => by
    rw [List.foldl_cons]
    exact foldl_pres_mem g P t (fun st x hx => hg st x (List.mem_cons_of_mem a hx)) (g st a)
      (hg st a (List.mem_cons_self a t) h)

theorem foldl_hit_mem {α β : Type} (g : α → β → α) (P : α → Prop) :
    ∀ (l : List β), (∀ st x, x ∈ l → P st → P (g st x)) →
      ∀ (x : β), x ∈ l → (∀ st, P (g st x)) → ∀ st, P (l.foldl g st)
  | [], _, _, hx, _, _ => absurd hx (List.not_mem_nil _)
  | a :: t, hg, x, hx, hbase, st => by
    rw [List.foldl_cons]
    rcases List.mem_cons.mp hx with rfl | hx2
    · exact foldl_pres_mem g P t (fun st y hy => hg st y (List.mem_cons_of_mem x hy)) (g st x)
        (hbase st)
    · exact foldl_hit_mem g P t (fun st y hy => hg st y (List.mem_cons_of_mem a hy)) x hx2
        hbase (g st a)

theorem pysorted_single (a : ℕ) : pysorted [a] = [a] :=
  pysorted_eq_self (by simp)

theorem pysorted_pair {a b : ℕ} (h : a ≤ b) : pysorted [a, b] = [a, b] :=
  pysorted_eq_self (by simp [List.sorted_cons, h])

theorem faceShape_sorted {X : List ℕ} {A : List Face} {f : Face} (h : FaceShape X A f) :
    f.Sorted (· < ·) := by
  rcases h with ⟨v, _, rfl⟩ | ⟨a, b, _, _, hab, rfl⟩ |
    ⟨a, b, c, _, _, _, hab, hbc, rfl, _, _, _⟩
  · simp
  · simp [List.sorted_cons, hab]
  · rw [List.sorted_cons]
    refine ⟨?_, ?_⟩
    · intro x hx
      rcases List.mem_cons.mp hx with rfl | hx
      · exact hab
      · rw [List.mem_singleton.mp hx]
        omega
    · rw [List.sorted_cons]
      refine ⟨?_, List.sorted_singleton c⟩
      intro x hx
      rw [List.mem_singleton.mp hx]
      exact hbc

theorem sublist_len1 {l τ : List ℕ} (h : List.Sublist τ l) (hl : τ.length = 1) :
    ∃ x ∈ l, τ = [x] := by
  rcases List.length_eq_one.mp hl with ⟨x, rfl⟩
  exact ⟨x, h.subset (List.mem_singleton_self x), rfl⟩

theorem sublist_len2_triple {a b c : ℕ} {τ : List ℕ} (h : List.Sublist τ [a, b, c])
    (hl : τ.length = 2) : τ = [a, b] ∨ τ = [a, c] ∨ τ = [b, c] := by
  cases h with
  | cons a' h1 =>
    exact Or.inr (Or.inr (List.Sublist.eq_of_length h1 (by rw [hl]; rfl)))
  | cons₂ a' h1 =>
    rename_i τ'
    have hl' : τ'.length = 1 := by
      rw [List.length_cons] at hl
      omega
    rcases sublist_len1 h1 hl' with ⟨x, hx, rfl⟩
    rcases List.mem_cons.mp hx with rfl | hx
    · exact Or.inl rfl
    · rw [List.mem_singleton.mp hx]
      exact Or.inr (Or.inl rfl)

theorem faceShape_pysorted_triple {X : List ℕ} {A : List Face} {p q r : ℕ}
    (hp : p ∈ X) (hq : q ∈ X) (hr : r ∈ X)
    (hpr : p < r) (hqp : q ≠ p) (hqr : q ≠ r)
    (epr : [p, r] ∈ A)
    (epq : (if q < p then [q, p] else [p, q]) ∈ A)
    (eqr : (if q < r then [q, r] else [r, q]) ∈ A) :
    FaceShape X A (pysorted [p, q, r]) := by
  rcases Nat.lt_trichotomy q p with h1 | h1 | h1
  · have hperm : List.Perm [p, q, r] [q, p, r] := List.Perm.swap q p [r]
    have hsorted : List.Sorted (· ≤ ·) [q, p, r] := by
      simp [List.sorted_cons]
      omega
    rw [pysorted_eq_of_perm hperm, pysorted_eq_self hsorted]
    rw [if_pos h1] at epq
    rw [if_pos (lt_trans h1 hpr)] at eqr
    exact Or.inr (Or.inr ⟨q, p, r, hq, hp, hr, h1, hpr, rfl, epq, eqr, epr⟩)
  · exact absurd h1 hqp
  · rcases Nat.lt_trichotomy q r with h2 | h2 | h2
    · have hsorted : List.Sorted (· ≤ ·) [p, q, r] := by
        simp [List.sorted_cons]
        omega
      rw [pysorted_eq_self hsorted]
      rw [if_neg (by omega)] at epq
      rw [if_pos h2] at eqr
      exact Or.inr (Or.inr ⟨p, q, r, hp, hq, hr, h1, h2, rfl, epq, epr, eqr⟩)
    · exact absurd h2 hqr
    · have hperm : List.Perm [p, q, r] [p, r, q] := List.Perm.cons p (List.Perm.swap r q [])
      have hsorted : List.Sorted (· ≤ ·) [p, r, q] := by
        simp [List.sorted_cons]
        omega
      rw [pysorted_eq_of_perm hperm, pysorted_eq_self hsorted]
      rw [if_neg (by omega)] at epq
      rw [if_neg (by omega)] at eqr
      exact Or.inr (Or.inr ⟨p, r, q, hp, hr, hq, hpr, h2, rfl, epr, epq, eqr⟩)

theorem sing_stage (X : List ℕ) :
    (∀ f ∈ X.foldl (fun A v => setAdd A [v]) [], ∃ v, v ∈ X ∧ f = [v]) ∧
    (∀ v ∈ X, [v] ∈ X.foldl (fun A v => setAdd A [v]) []) ∧
    (X.foldl (fun A v => setAdd A [v]) []).Nodup := by
  refine ⟨?_, ?_, ?_⟩
  · intro f hf
    rcases (mem_foldl_setAdd (fun v => [v]) X [] f).mp hf with h | ⟨v, hv, rfl⟩
    · cases h
    · exact ⟨v, hv, rfl⟩
  · intro v hv
    exact (mem_foldl_setAdd (fun v => [v]) X [] [v]).mpr (Or.inr ⟨v, hv, rfl⟩)
  · exact nodup_foldl_setAdd (fun v => [v]) X [] List.nodup_nil

theorem edge_stage (X : List ℕ) (adj : Dict)
    (hmem2 : ∀ v u, v ∈ X → u ∈ pyset (Dict.getD adj v) → u ∈ X)
    (st : List Face × List Face) (h0 : BuildInv0 X st) :
    BuildInv X adj
      (X.foldl
        (fun (st : List Face × List Face) v =>
          (pyset (Dict.getD adj v)).foldl
            (fun st u => if v < u then (setAdd st.1 [v, u], setAdd st.2 [v, u]) else st)
            st)
        st) := by
  have hinner : ∀ v, v ∈ X → ∀ st : List Face × List Face, BuildInv0 X st →
      BuildInv0 X ((pyset (Dict.getD adj v)).foldl
        (fun st u => if v < u then (setAdd st.1 [v, u], setAdd st.2 [v, u]) else st) st) := by
    intro v hv st hst
    refine foldl_pres_mem _ _ _ ?_ st hst
    intro st u hu hst
    by_cases hvu : v < u
    · rw [if_pos hvu]
      obtain ⟨hs, he, hnd, hsing⟩ := hst
      refine ⟨?_, ?_, setAdd_nodup hnd, ?_⟩
      · intro f hf
        rcases mem_setAdd.mp hf with hf | rfl
        · exact faceShape_mono (fun g hg => mem_setAdd.mpr (Or.inl hg)) (hs f hf)
        · exact Or.inr (Or.inl ⟨v, u, hv, hmem2 v u hv hu, hvu, rfl⟩)
      · intro e heE
        rcases mem_setAdd.mp heE with heE | rfl
        · exact mem_setAdd.mpr (Or.inl (he e heE))
        · exact mem_setAdd.mpr (Or.inr rfl)
      · intro w hw
        exact mem_setAdd.mpr (Or.inl (hsing w hw))
    · rw [if_neg hvu]
      exact hst
  refine ⟨foldl_pres_mem _ _ X (fun st v hv => hinner v hv st) st h0, ?_⟩
  intro a b ha hb hab
  have hpres2 : ∀ (v : ℕ), v ∈ X → ∀ st : List Face × List Face,
      [a, b] ∈ st.1 →
      [a, b] ∈ ((pyset (Dict.getD adj v)).foldl
        (fun st u => if v < u then (setAdd st.1 [v, u], setAdd st.2 [v, u]) else st) st).1 := by
    intro v _ st hm
    refine foldl_pres_mem _ (fun st : List Face × List Face => [a, b] ∈ st.1) _ ?_ st hm
    intro st u _ hm2
    by_cases hvu : v < u
    · rw [if_pos hvu]
      exact mem_setAdd.mpr (Or.inl hm2)
    · rw [if_neg hvu]
      exact hm2
  refine foldl_hit_mem _ (fun st : List Face × List Face => [a, b] ∈ st.1) X
    (fun st v hv hm => hpres2 v hv st hm) a ha ?_ st
  intro st
  refine foldl_hit_mem _ (fun st : List Face × List Face => [a, b] ∈ st.1) _
    ?_ b hb ?_ st
  · intro st u _ hm2
    by_cases hau : a < u
    · rw [if_pos hau]
      exact mem_setAdd.mpr (Or.inl hm2)
    · rw [if_neg hau]
      exact hm2
  · intro st
    rw [if_pos hab]
    exact mem_setAdd.mpr (Or.inr rfl)

theorem tri_stage {X : List ℕ} {adj : Dict} :
    ∀ (tris : List Tri),
      (∀ t ∈ tris, t.1 ∈ X ∧ t.2.1 ∈ X ∧ t.2.2 ∈ X ∧ t.1 < t.2.1 ∧ t.2.1 < t.2.2 ∧
        t.2.1 ∈ pyset (Dict.getD adj t.1) ∧ t.2.2 ∈ pyset (Dict.getD adj t.1) ∧
        t.2.2 ∈ pyset (Dict.getD adj t.2.1)) →
      ∀ (A E : List Face), BuildInv X adj (A, E) →
        BuildInv X adj (tris.foldl (fun A t => setAdd A [t.1, t.2.1, t.2.2]) A, E)
  | [], _, _, _, h => h
  | t :: ts, htris, A, E, h => by
    rw [List.foldl_cons]
    refine tri_stage ts (fun t' ht' => htris t' (List.mem_cons_of_mem t ht')) _ E ?_
    obtain ⟨⟨hs, he, hnd, hsing⟩, hhit⟩ := h
    obtain ⟨h1, h2, h3, h4, h5, h6, h7, h8⟩ := htris t (List.mem_cons_self t ts)
    have hsub : ∀ g ∈ A, g ∈ setAdd A [t.1, t.2.1, t.2.2] :=
      fun g hg => mem_setAdd.mpr (Or.inl hg)
    refine ⟨⟨?_, ?_, setAdd_nodup hnd, ?_⟩, ?_⟩
    · intro f hf
      rcases mem_setAdd.mp hf with hf | rfl
      · exact faceShape_mono hsub (hs f hf)
      · refine Or.inr (Or.inr ⟨t.1, t.2.1, t.2.2, h1, h2, h3, h4, h5, rfl, ?_, ?_, ?_⟩)
        · exact hsub _ (hhit t.1 t.2.1 h1 h6 h4)
        · exact hsub _ (hhit t.1 t.2.2 h1 h7 (lt_trans h4 h5))
        · exact hsub _ (hhit t.2.1 t.2.2 h2 h8 h5)
    · intro e heE
      exact hsub _ (he e heE)
    · intro v hv
      exact hsub _ (hsing v hv)
    · intro a b ha hb hab
      exact hsub _ (hhit a b ha hb hab)

theorem addTri_inv {X : List ℕ} {adj : Dict} {st : List Face × List Face} {s : Face}
    (h : BuildInv X adj st) (hs : FaceShape X st.1 s) :
    BuildInv X adj (setAdd st.1 s, st.2) := by
  obtain ⟨⟨h1, h2, h3, h4⟩, h5⟩ := h
  have hsub : ∀ g ∈ st.1, g ∈ setAdd st.1 s := fun g hg => mem_setAdd.mpr (Or.inl hg)
  refine ⟨⟨?_, fun e he => hsub _ (h2 e he), setAdd_nodup h3,
    fun v hv => hsub _ (h4 v hv)⟩, fun a b ha hb hab => hsub _ (h5 a b ha hb hab)⟩
  intro f hf
  rcases mem_setAdd.mp hf with hf | rfl
  · exact faceShape_mono hsub (h1 f hf)
  · exact faceShape_mono hsub hs

theorem diagStep_inv {X : List ℕ} {adj : Dict} {st : List Face × List Face} {a b : ℕ}
    (h : BuildInv X adj st) (ha : a ∈ X) (hb : b ∈ X) (hab : a < b) :
    BuildInv X adj (if [a, b] ∈ st.2 then st
        else (setAdd st.1 [a, b], st.2 ++ [[a, b]])) ∧
      [a, b] ∈ (if [a, b] ∈ st.2 then st
        else (setAdd st.1 [a, b], st.2 ++ [[a, b]])).1 := by
  obtain ⟨⟨h1, h2, h3, h4⟩, h5⟩ := h
  by_cases hd : [a, b] ∈ st.2
  · rw [if_pos hd]
    exact ⟨⟨⟨h1, h2, h3, h4⟩, h5⟩, h2 _ hd⟩
  · rw [if_neg hd]
    have hsub : ∀ g ∈ st.1, g ∈ setAdd st.1 [a, b] := fun g hg => mem_setAdd.mpr (Or.inl hg)
    refine ⟨⟨⟨?_, ?_, setAdd_nodup h3, fun v hv => hsub _ (h4 v hv)⟩,
      fun x y hx hy hxy => hsub _ (h5 x y hx hy hxy)⟩, mem_setAdd.mpr (Or.inr rfl)⟩
    · intro f hf
      rcases mem_setAdd.mp hf with hf | rfl
      · exact faceShape_mono hsub (h1 f hf)
      · exact Or.inr (Or.inl ⟨a, b, ha, hb, hab, rfl⟩)
    · intro e he
      rcases List.mem_append.mp he with he | he
      · exact hsub _ (h2 e he)
      · rw [List.mem_singleton.mp he]
        exact mem_setAdd.mpr (Or.inr rfl)

theorem quad_stage {X : List ℕ} {adj : Dict}
    (hsymX : ∀ v u, u ∈ Dict.getD adj v → v ∈ Dict.getD adj u) :
    ∀ (quads : List Quad),
      (∀ q ∈ quads, q.1 ∈ X ∧ q.2.1 ∈ X ∧ q.2.2.1 ∈ X ∧ q.2.2.2 ∈ X ∧
        q.1 < q.2.2.1 ∧ q.2.1 ≠ q.1 ∧ q.2.1 ≠ q.2.2.1 ∧ q.2.2.2 ≠ q.1 ∧ q.2.2.2 ≠ q.2.2.1 ∧
        q.2.1 ∈ Dict.getD adj q.1 ∧ q.2.1 ∈ Dict.getD adj q.2.2.1 ∧
        q.2.2.2 ∈ Dict.getD adj q.1 ∧ q.2.2.2 ∈ Dict.getD adj q.2.2.1) →
      ∀ st : List Face × List Face, BuildInv X adj st →
        BuildInv X adj (quads.foldl
          (fun (st : List Face × List Face) q =>
            let diag_edge := pysorted [q.1, q.2.2.1]
            let st' := if diag_edge ∈ st.2 then st
              else (setAdd st.1 diag_edge, st.2 ++ [diag_edge])
            let A' := setAdd st'.1 (pysorted [q.1, q.2.1, q.2.2.1])
            (setAdd A' (pysorted [q.1, q.2.2.1, q.2.2.2]), st'.2))
          st)
  | [], _, _, h => h
  | q :: qs, hquads, st, h => by
    rw [List.foldl_cons]
    refine quad_stage hsymX qs (fun q' hq' => hquads q' (List.mem_cons_of_mem q hq')) _ ?_
    obtain ⟨hq1X, hq2X, hq3X, hq4X, hvv, hne1, hne2, hne3, hne4, had1, had2, had3, had4⟩ :=
      hquads q (List.mem_cons_self q qs)
    show BuildInv X adj
      (setAdd
        (setAdd
          (if pysorted [q.1, q.2.2.1] ∈ st.2 then st
            else (setAdd st.1 (pysorted [q.1, q.2.2.1]),
              st.2 ++ [pysorted [q.1, q.2.2.1]])).1
          (pysorted [q.1, q.2.1, q.2.2.1]))
        (pysorted [q.1, q.2.2.1, q.2.2.2]),
        (if pysorted [q.1, q.2.2.1] ∈ st.2 then st
          else (setAdd st.1 (pysorted [q.1, q.2.2.1]),
            st.2 ++ [pysorted [q.1, q.2.2.1]])).2)
    have hdiag : pysorted [q.1, q.2.2.1] = [q.1, q.2.2.1] := pysorted_pair (le_of_lt hvv)
    rw [hdiag]
    rcases diagStep_inv h hq1X hq3X hvv with ⟨hst', hdm⟩
    have hhit := hst'.2
    refine addTri_inv (addTri_inv hst' ?_) ?_
    · refine faceShape_pysorted_triple hq1X hq2X hq3X hvv hne1 hne2 hdm ?_ ?_
      · by_cases hlt : q.2.1 < q.1
        · rw [if_pos hlt]
          exact hhit q.2.1 q.1 hq2X (mem_pyset.mpr (hsymX _ _ had1)) hlt
        · rw [if_neg hlt]
          exact hhit q.1 q.2.1 hq1X (mem_pyset.mpr had1) (by omega)
      · by_cases hlt : q.2.1 < q.2.2.1
        · rw [if_pos hlt]
          exact hhit q.2.1 q.2.2.1 hq2X (mem_pyset.mpr (hsymX _ _ had2)) hlt
        · rw [if_neg hlt]
          exact hhit q.2.2.1 q.2.1 hq3X (mem_pyset.mpr had2) (by omega)
    · have hperm2 : pysorted [q.1, q.2.2.1, q.2.2.2] = pysorted [q.1, q.2.2.2, q.2.2.1] :=
        pysorted_eq_of_perm (List.Perm.cons q.1 (List.Perm.swap q.2.2.2 q.2.2.1 []))
      rw [hperm2]
      refine faceShape_pysorted_triple hq1X hq4X hq3X hvv hne3 hne4
        (mem_setAdd.mpr (Or.inl hdm)) ?_ ?_
      · by_cases hlt : q.2.2.2 < q.1
        · rw [if_pos hlt]
          exact mem_setAdd.mpr
            (Or.inl (hhit q.2.2.2 q.1 hq4X (mem_pyset.mpr (hsymX _ _ had3)) hlt))
        · rw [if_neg hlt]
          exact mem_setAdd.mpr
            (Or.inl (hhit q.1 q.2.2.2 hq1X (mem_pyset.mpr had3) (by omega)))
      · by_cases hlt : q.2.2.2 < q.2.2.1
        · rw [if_pos hlt]
          exact mem_setAdd.mpr
            (Or.inl (hhit q.2.2.2 q.2.2.1 hq4X (mem_pyset.mpr (hsymX _ _ had4)) hlt))
        · rw [if_neg hlt]
          exact mem_setAdd.mpr
            (Or.inl (hhit q.2.2.1 q.2.2.2 hq3X (mem_pyset.mpr had4) (by omega)))

theorem subsetClosed_of_shapes {X : List ℕ} {A : List Face}
    (hshape : ∀ f ∈ A, FaceShape X A f)
    (hsing : ∀ v ∈ X, [v] ∈ A) :
    SubsetClosed A := by
  have hps : ∀ f ∈ A, pysorted f = f := fun f hf =>
    pysorted_eq_self ((faceShape_sorted (hshape f hf)).imp le_of_lt)
  have hdd : ∀ g : Face, g ∈ (A.map pysorted).dedup ↔ g ∈ A := by
    intro g
    rw [List.mem_dedup]
    constructor
    · intro hg
      rcases List.mem_map.mp hg with ⟨f, hf, rfl⟩
      rw [hps f hf]
      exact hf
    · intro hg
      exact List.mem_map.mpr ⟨g, hg, hps g hg⟩
  intro σ hσ k hk1 hk2 τ hτ
  rw [hdd] at hσ
  rw [hdd]
  rcases mem_combinations.mp hτ with ⟨hsub, hlen⟩
  rcases hshape σ hσ with ⟨v, hv, rfl⟩ | ⟨a, b, haX, hbX, hab, rfl⟩ |
    ⟨a, b, c, haX, hbX, hcX, hab, hbc, rfl, e1, e2, e3⟩
  · simp only [List.length_singleton] at hk2
    omega
  · have hk : k = 1 := by
      simp only [List.length_cons, List.length_nil] at hk2
      omega
    subst hk
    rcases sublist_len1 hsub hlen with ⟨x, hx, rfl⟩
    rw [pysorted_single]
    rcases List.mem_cons.mp hx with rfl | hx
    · exact hsing x haX
    · rw [List.mem_singleton.mp hx]
      exact hsing b hbX
  · have hk : k = 1 ∨ k = 2 := by
      simp only [List.length_cons, List.length_nil] at hk2
      omega
    rcases hk with rfl | rfl
    · rcases sublist_len1 hsub hlen with ⟨x, hx, rfl⟩
      rw [pysorted_single]
      rcases List.mem_cons.mp hx with rfl | hx
      · exact hsing x haX
      · rcases List.mem_cons.mp hx with rfl | hx
        · exact hsing x hbX
        · rw [List.mem_singleton.mp hx]
          exact hsing c hcX
    · rcases sublist_len2_triple hsub hlen with rfl | rfl | rfl
      · rw [pysorted_pair (le_of_lt hab)]
        exact e1
      · rw [pysorted_pair (le_of_lt (lt_trans hab hbc))]
        exact e2
      · rw [pysorted_pair (le_of_lt hbc)]
        exact e3

theorem singleton_count {X : List ℕ} {A : List Face}
    (hXnd : X.Nodup) (hAnd : A.Nodup)
    (hshape : ∀ f ∈ A, FaceShape X A f)
    (hsing : ∀ v ∈ X, [v] ∈ A) :
    (A.filter fun σ => σ.length == 1).length = X.length := by
  have hinj : Function.Injective (fun v : ℕ => ([v] : Face)) := by
    intro a b h
    injection h
  have hperm : List.Perm (A.filter fun σ => σ.length == 1) (X.map fun v => [v]) := by
    rw [List.perm_ext_iff_of_nodup (hAnd.filter _) (hXnd.map hinj)]
    intro f
    rw [List.mem_filter, List.mem_map]
    constructor
    · rintro ⟨hf, hl⟩
      rcases hshape f hf with ⟨v, hv, rfl⟩ | ⟨a, b, _, _, _, rfl⟩ |
        ⟨a, b, c, _, _, _, _, _, rfl, _, _, _⟩
      · exact ⟨v, hv, rfl⟩
      · simp at hl
      · simp at hl
    · rintro ⟨v, hv, rfl⟩
      exact ⟨hsing v hv, by simp⟩
  rw [hperm.length_eq, List.length_map]

theorem is_simp_cplx_true {vertices : List ℕ} {faces : List Face}
    (hcount : (faces.filter fun σ => σ.length == 1).length = vertices.length)
    (hclosed : SubsetClosed faces) :
    is_simp_cplx vertices faces = true := by
  unfold is_simp_cplx
  rw [if_neg (by simp [hcount])]
  simp only [List.all_eq_true]
  intro σ hσ k hk τ hτ
  have hk' := List.mem_range'_1.mp hk
  have := hclosed σ hσ k hk'.1 (by omega) τ hτ
  simpa using this

/-- Claim C10: on a simple symmetric graph whose adjacency dictionary has
exactly the given vertices as keys and whose adjacency lists mention only
those vertices, `build_simplicial_complex` already returns a valid
simplicial complex: every face is a strictly increasing tuple, every
vertex has its singleton face, the face set is downward closed, and
`is_simp_cplx` accepts the pair. -/
theorem claim_C10_valid_complex (vertices : List ℕ) (adj : Dict)
    (hvnd : vertices.Nodup)
    (hper : List.Perm (Dict.keys adj) vertices)
    (hmem : ∀ p ∈ adj, ∀ u ∈ p.2, u ∈ vertices)
    (hsym : ∀ p ∈ adj, ∀ u ∈ p.2, p.1 ∈ Dict.getD adj u)
    (hirr : ∀ p ∈ adj, p.1 ∉ p.2) :
    (∀ σ ∈ (SrcCD.build_simplicial_complex vertices adj).2, σ.Sorted (· < ·)) ∧
    (∀ v ∈ (SrcCD.build_simplicial_complex vertices adj).1,
      [v] ∈ (SrcCD.build_simplicial_complex vertices adj).2) ∧
    SubsetClosed (SrcCD.build_simplicial_complex vertices adj).2 ∧
    is_simp_cplx (SrcCD.build_simplicial_complex vertices adj).1
      (SrcCD.build_simplicial_complex vertices adj).2 = true := by
  have hVX : pysorted (Dict.keys adj) = pysorted vertices := pysorted_eq_of_perm hper
  have hXnd : (pysorted vertices).Nodup := (pysorted_perm vertices).nodup_iff.mpr hvnd
  have hXs : (pysorted vertices).Sorted (· < ·) :=
    sorted_lt_of_le_nodup (pysorted_sorted _) hXnd
  have hmem' : ∀ v u, u ∈ Dict.getD adj v → u ∈ pysorted vertices := by
    intro v u hu
    rw [mem_pysorted]
    unfold Dict.getD Dict.get? at hu
    cases hl : List.lookup v adj with
    | none => rw [hl] at hu; cases hu
    | some Nv =>
      rw [hl] at hu
      exact hmem _ (lookup_mem hl) u hu
  have hsym' : ∀ v u, u ∈ Dict.getD adj v → v ∈ Dict.getD adj u := by
    intro v u hu
    unfold Dict.getD Dict.get? at hu
    cases hl : List.lookup v adj with
    | none => rw [hl] at hu; cases hu
    | some Nv =>
      rw [hl] at hu
      exact hsym _ (lookup_mem hl) u hu
  have hirr' : ∀ v, v ∉ Dict.getD adj v := by
    intro v hv
    unfold Dict.getD Dict.get? at hv
    cases hl : List.lookup v adj with
    | none => rw [hl] at hv; cases hv
    | some Nv =>
      rw [hl] at hv
      exact hirr _ (lookup_mem hl) hv
  have hmono : ∀ i j : ℕ, i < j → j < (pysorted vertices).length →
      (pysorted vertices).getD i 0 < (pysorted vertices).getD j 0 := by
    intro i j hij hj
    have hi : i < (pysorted vertices).length := lt_trans hij hj
    rw [List.getD_eq_getElem _ 0 hi, List.getD_eq_getElem _ 0 hj]
    exact List.Sorted.get_strictMono hXs (show (⟨i, hi⟩ : Fin _) < ⟨j, hj⟩ from hij)
  have hXget : ∀ i : ℕ, i < (pysorted vertices).length →
      (pysorted vertices).getD i 0 ∈ pysorted vertices := by
    intro i hi
    rw [List.getD_eq_getElem _ 0 hi]
    exact List.getElem_mem hi
  have htris : ∀ t ∈ SrcCD.detect_3_cycles adj, t.1 ∈ pysorted vertices ∧
      t.2.1 ∈ pysorted vertices ∧ t.2.2 ∈ pysorted vertices ∧ t.1 < t.2.1 ∧ t.2.1 < t.2.2 ∧
      t.2.1 ∈ pyset (Dict.getD adj t.1) ∧ t.2.2 ∈ pyset (Dict.getD adj t.1) ∧
      t.2.2 ∈ pyset (Dict.getD adj t.2.1) := by
    intro t ht
    rcases srcCD_detect3_mem ht with ⟨i, j, k, hij, hjk, hin, hjn, hkn, rfl, ha1, ha2, ha3⟩
    rw [hVX] at hin hjn hkn ha1 ha2 ha3 ⊢
    exact ⟨hXget i hin, hXget j hjn, hXget k hkn, hmono i j hij hjn, hmono j k hjk hkn,
      mem_pyset.mpr ha1, mem_pyset.mpr ha2, mem_pyset.mpr ha3⟩
  have hquads : ∀ q ∈ SrcCD.detect_4_cycles adj, q.1 ∈ pysorted vertices ∧
      q.2.1 ∈ pysorted vertices ∧ q.2.2.1 ∈ pysorted vertices ∧
      q.2.2.2 ∈ pysorted vertices ∧
      q.1 < q.2.2.1 ∧ q.2.1 ≠ q.1 ∧ q.2.1 ≠ q.2.2.1 ∧ q.2.2.2 ≠ q.1 ∧ q.2.2.2 ≠ q.2.2.1 ∧
      q.2.1 ∈ Dict.getD adj q.1 ∧ q.2.1 ∈ Dict.getD adj q.2.2.1 ∧
      q.2.2.2 ∈ Dict.getD adj q.1 ∧ q.2.2.2 ∈ Dict.getD adj q.2.2.1 := by
    intro q hq
    rcases srcCD_detect4_mem hq with ⟨i, u, j, w, hij, huw, hin, hun, hjn, hwn, rfl,
      ha1, ha2, ha3, ha4⟩
    rw [hVX] at hin hun hjn hwn ha1 ha2 ha3 ha4 ⊢
    refine ⟨hXget i hin, hXget u hun, hXget j hjn, hXget w hwn, hmono i j hij hjn,
      ?_, ?_, ?_, ?_, ha1, ha2, ha3, ha4⟩
    · intro he
      have he2 : (pysorted vertices).getD u 0 = (pysorted vertices).getD i 0 := he
      rw [he2] at ha1
      exact hirr' _ ha1
    · intro he
      have he2 : (pysorted vertices).getD u 0 = (pysorted vertices).getD j 0 := he
      rw [he2] at ha2
      exact hirr' _ ha2
    · intro he
      have he2 : (pysorted vertices).getD w 0 = (pysorted vertices).getD i 0 := he
      rw [he2] at ha3
      exact hirr' _ ha3
    · intro he
      have he2 : (pysorted vertices).getD w 0 = (pysorted vertices).getD j 0 := he
      rw [he2] at ha4
      exact hirr' _ ha4
  have hmem2 : ∀ v u, v ∈ pysorted vertices → u ∈ pyset (Dict.getD adj v) →
      u ∈ pysorted vertices := fun v u _ hu => hmem' v u (mem_pyset.mp hu)
  have h1 := sing_stage (pysorted vertices)
  have h0 : BuildInv0 (pysorted vertices)
      ((pysorted vertices).foldl (fun A v => setAdd A [v]) [], ([] : List Face)) :=
    ⟨fun f hf => Or.inl (h1.1 f hf), fun e he => absurd he (List.not_mem_nil e),
      h1.2.2, h1.2.1⟩
  have h2 := edge_stage (pysorted vertices) adj hmem2 _ h0
  have h3 := tri_stage (SrcCD.detect_3_cycles adj) htris _ _ h2
  have h4 := quad_stage hsym' (SrcCD.detect_4_cycles adj) hquads _ h3
  obtain ⟨⟨hshape, hseen, hnodup, hsing⟩, hhit⟩ := h4
  have hshape2 : ∀ f ∈ (SrcCD.build_simplicial_complex vertices adj).2,
      FaceShape (pysorted vertices) (SrcCD.build_simplicial_complex vertices adj).2 f :=
    hshape
  have hsing2 : ∀ v ∈ pysorted vertices,
      [v] ∈ (SrcCD.build_simplicial_complex vertices adj).2 := hsing
  have hnodup2 : (SrcCD.build_simplicial_complex vertices adj).2.Nodup := hnodup
  refine ⟨?_, ?_, ?_, ?_⟩
  · intro σ hσ
    exact faceShape_sorted (hshape2 σ hσ)
  · intro v hv
    exact hsing2 v hv
  · exact subsetClosed_of_shapes hshape2 hsing2
  · exact is_simp_cplx_true (singleton_count hXnd hnodup2 hshape2 hsing2)
      (subsetClosed_of_shapes hshape2 hsing2)

/-- Claim C10 witness: the statement instantiated on the chordless square. -/
theorem claim_C10_witness :
    (∀ σ ∈ (SrcCD.build_simplicial_complex [1, 2, 3, 4] squareAdj).2, σ.Sorted (· < ·)) ∧
    (∀ v ∈ (SrcCD.build_simplicial_complex [1, 2, 3, 4] squareAdj).1,
      [v] ∈ (SrcCD.build_simplicial_complex [1, 2, 3, 4] squareAdj).2) ∧
    SubsetClosed (SrcCD.build_simplicial_complex [1, 2, 3, 4] squareAdj).2 ∧
    is_simp_cplx (SrcCD.build_simplicial_complex [1, 2, 3, 4] squareAdj).1
      (SrcCD.build_simplicial_complex [1, 2, 3, 4] squareAdj).2 = true :=
  claim_C10_valid_complex [1, 2, 3, 4] squareAdj (by decide) (by decide) (by decide)
    (by decide) (by decide)
